import Mathlib

/-!
Verification of the octollm LLM-gateway core against its specification.

Each section embeds one Go component as executable Lean definitions,
translated from the repository source:

* `UnifiedBody`        — pkg/octollm body abstraction (`Parsed`, `Bytes`, `SetParsed`)
* `jsonParserParse`    — pkg/octollm `JSONParser.Parse` with the `[DONE]` marker
* `processSSELine`     — HTTP client stage SSE line scanner
* `convGo`             — converter `convertStreamResponse` stream state machine
* `wrrSelect`          — load-balancer `GetNextEngine` smooth weighted round robin
* `lbRun`              — load-balancer `Process` retry loop
* `getEngineCheck`     — composer `getEngine` access-control prefix
* `modRun`             — moderator stream goroutine

Theorems named `C1_…` … `C10_…` settle the corresponding claims.
-/

namespace OctoLLM

/-- Model of Go `error` values as used by the gateway core.  `streamDone`
stands for the dedicated `ErrStreamDone` sentinel (errors wrapping it with
`%w` still satisfy `errors.Is(err, ErrStreamDone)`, so they are identified
with it); `msg` stands for any other error, identified by its message. -/
inductive GoError where
  | streamDone : GoError
  | msg : String → GoError
deriving DecidableEq

/-- Model of the Go `Parser` interface (`Parse`/`Serialize`).  Byte slices
are `List Nat`; a `nil` Go slice passed to `Parse` is modelled as `[]`
(all parsers in the repository treat them identically). -/
structure GoParser (Val : Type) where
  parse : List Nat → Except GoError Val
  serialize : Val → Except GoError (List Nat)

/-- `UnifiedBody`, translated from pkg/octollm (src/unnamed/part_000).
`reader` models the unread stream as its eventual contents (I/O errors are
not modelled); `bytes`/`parsed` are `Option` because the Go fields are
nilable; `parseErr` and `isDirty` are as in the source. -/
structure UnifiedBody (Val : Type) where
  reader : Option (List Nat)
  bytes : Option (List Nat)
  parsed : Option Val
  parser : GoParser Val
  parseErr : Option GoError
  isDirty : Bool

/-- `NewBodyFromReader`. -/
def NewBodyFromReader (data : List Nat) (p : GoParser Val) : UnifiedBody Val :=
  ⟨some data, none, none, p, none, false⟩

/-- `NewBodyFromBytes`. -/
def NewBodyFromBytes (bs : List Nat) (p : GoParser Val) : UnifiedBody Val :=
  ⟨none, some bs, none, p, none, false⟩

/-- Result of one `Parsed()` call: the returned `(any, error)` pair, the
body state afterwards, and whether `parser.Parse` was invoked during the
call (it is invoked exactly when the `b.parsed != nil` guard fails). -/
structure ParsedResult (Val : Type) where
  value : Option Val
  err : Option GoError
  body : UnifiedBody Val
  parserInvoked : Bool

/-- `UnifiedBody.Parsed`, translated from the source: the cache guard is
`b.parsed != nil`; if a reader is present it is drained into `bytes` and
closed; then `parser.Parse(b.bytes)` is run and its result assigned to
`(b.parsed, b.parseErr)`. -/
def UnifiedBody.Parsed (b : UnifiedBody Val) : ParsedResult Val :=
  match b.parsed with
  | some v => ⟨some v, b.parseErr, b, false⟩
  | none =>
    let b1 : UnifiedBody Val :=
      match b.reader with
      | some data => { b with bytes := some data, reader := none }
      | none => b
    match b1.parser.parse (b1.bytes.getD []) with
    | .ok v => ⟨some v, none, { b1 with parsed := some v, parseErr := none }, true⟩
    | .error e => ⟨none, some e, { b1 with parsed := none, parseErr := some e }, true⟩

/-- Result of one `Bytes()` call: returned `([]byte, error)` and the body
state afterwards. -/
structure BytesResult (Val : Type) where
  result : Except GoError (List Nat)
  body : UnifiedBody Val

/-- `UnifiedBody.Bytes`, translated from the source: cached bytes are
returned when clean; a dirty body re-serializes its parsed value (failing
when it is nil); otherwise the reader is drained and cached. -/
def UnifiedBody.Bytes (b : UnifiedBody Val) : BytesResult Val :=
  if !b.isDirty && b.bytes.isSome then ⟨.ok (b.bytes.getD []), b⟩
  else if b.isDirty then
    match b.parsed with
    | none => ⟨.error (.msg "parsed body must not be nil"), b⟩
    | some v =>
      match b.parser.serialize v with
      | .error _ => ⟨.error (.msg "serialize body error"), b⟩
      | .ok bs => ⟨.ok bs, { b with bytes := some bs, isDirty := false }⟩
  else
    match b.reader with
    | none => ⟨.error (.msg "reader must not be nil"), b⟩
    | some data => ⟨.ok data, { b with bytes := some data, reader := none }⟩

/-- `UnifiedBody.SetBytes`. -/
def UnifiedBody.SetBytes (b : UnifiedBody Val) (bs : List Nat) : UnifiedBody Val :=
  { b with bytes := some bs, parsed := none, parseErr := none, isDirty := false,
           reader := none }

/-- `UnifiedBody.SetParsed`: assigns the parsed value (a non-nil Go value
is modelled by `v : Val`), raises the dirty flag, closes any reader. -/
def UnifiedBody.SetParsed (b : UnifiedBody Val) (v : Val) : UnifiedBody Val :=
  { b with parsed := some v, isDirty := true, reader := none }

/-- `UnifiedBody.SetParser`. -/
def UnifiedBody.SetParser (b : UnifiedBody Val) (p : GoParser Val) : UnifiedBody Val :=
  { b with parser := p, parsed := none, parseErr := none, isDirty := false }

/-- A concrete parser whose parse always fails, as any `JSONParser[T]` does
on non-JSON input such as `not-json`. -/
def failingParser : GoParser Nat :=
  ⟨fun _ => .error (.msg "parse fail"), fun _ => .error (.msg "no serialize")⟩

/-- A body holding bytes whose parse fails. -/
def failingBody : UnifiedBody Nat := NewBodyFromBytes [1, 2] failingParser

/-- C2: refuted as stated.  For a body whose bytes fail to parse, the
first `Parsed()` call stores the error but leaves `parsed` nil, so the
`b.parsed != nil` cache guard fails again and the second `Parsed()` call
invokes the parser a second time (`parserInvoked = true` on both calls),
contrary to the claim that the parse runs at most once per assignment of
bytes and that subsequent calls return the cached error without invoking
the parser again. -/
theorem C2_parse_error_reparses :
    (failingBody.Parsed).parserInvoked = true ∧
    (failingBody.Parsed).err = some (.msg "parse fail") ∧
    ((failingBody.Parsed).body).parseErr = some (.msg "parse fail") ∧
    ((failingBody.Parsed).body).parsed = none ∧
    (((failingBody.Parsed).body).Parsed).parserInvoked = true ∧
    (((failingBody.Parsed).body).Parsed).err = some (.msg "parse fail") := by
  refine ⟨rfl, rfl, rfl, rfl, rfl, rfl⟩

/-- C6: for any body constructed from bytes `B`, `bytes()` immediately
afterwards returns exactly `B`; and after `setParsed(v)` on any body,
`parsed()` returns `v` and `bytes()` returns `serialize(v)` (stated for a
`v` that the body's parser serializes to `s`). -/
theorem C6_body_roundtrip (Val : Type) (B : List Nat) (p : GoParser Val)
    (b : UnifiedBody Val) (v : Val) (s : List Nat)
    (hs : b.parser.serialize v = .ok s) :
    ((NewBodyFromBytes B p).Bytes).result = .ok B ∧
    ((b.SetParsed v).Parsed).value = some v ∧
    ((b.SetParsed v).Bytes).result = .ok s := by
  refine ⟨rfl, rfl, ?_⟩
  simp [UnifiedBody.SetParsed, UnifiedBody.Bytes, hs]

/-- Witness for C6 at a concrete body, value and parser. -/
theorem C6_body_roundtrip_witness :
    ((NewBodyFromBytes [9] ⟨fun _ => .error (.msg "e"), fun n => .ok [n]⟩).Bytes).result
      = .ok [9] ∧
    (((NewBodyFromBytes [9] ⟨fun _ => .error (.msg "e"), fun n => .ok [n]⟩).SetParsed 5).Parsed).value
      = some 5 ∧
    (((NewBodyFromBytes [9] ⟨fun _ => .error (.msg "e"), fun n => .ok [n]⟩).SetParsed 5).Bytes).result
      = .ok [5] :=
  C6_body_roundtrip Nat [9] ⟨fun _ => .error (.msg "e"), fun n => .ok [n]⟩
    (NewBodyFromBytes [9] ⟨fun _ => .error (.msg "e"), fun n => .ok [n]⟩) 5 [5] rfl

/-! ### JSON syntax validation and `JSONParser.Parse` (stream parser) -/

/-- JSON insignificant whitespace (RFC 8259): space, tab, LF, CR. -/
def isJsonWs (c : Char) : Bool := c = ' ' || c = '\t' || c = '\n' || c = '\r'

/-- Skip leading JSON whitespace. -/
def skipWs : List Char → List Char
  | [] => []
  | c :: rest => if isJsonWs c then skipWs rest else c :: rest

/-- ASCII digit test. -/
def isDig (c : Char) : Bool := '0' ≤ c && c ≤ '9'

/-- Hex digit test. -/
def isHex (c : Char) : Bool :=
  isDig c || ('a' ≤ c && c ≤ 'f') || ('A' ≤ c && c ≤ 'F')

/-- Tail of a JSON number after its integer part: optional fraction and
exponent.  Returns the unconsumed remainder. -/
def numTail (s : List Char) : Option (List Char) :=
  let afterFrac : Option (List Char) :=
    match s with
    | '.' :: r =>
      match r with
      | c :: r2 => if isDig c then some (r2.dropWhile isDig) else none
      | [] => none
    | _ => some s
  match afterFrac with
  | none => none
  | some s2 =>
    match s2 with
    | 'e' :: r | 'E' :: r =>
      let r2 := match r with
        | '+' :: r3 => r3
        | '-' :: r3 => r3
        | _ => r
      match r2 with
      | c :: r3 => if isDig c then some (r3.dropWhile isDig) else none
      | [] => none
    | _ => some s2

/-- Parse a JSON number (grammar of RFC 8259). -/
def parseJNumber (s : List Char) : Option (List Char) :=
  let s1 := match s with
    | '-' :: r => r
    | _ => s
  match s1 with
  | '0' :: r => numTail r
  | c :: r => if isDig c then numTail (r.dropWhile isDig) else none
  | [] => none

mutual

/-- Parse one JSON value.  Every recursive call decreases `fuel`; callers
supply fuel exceeding any possible recursion depth of the input. -/
def parseJValue : Nat → List Char → Option (List Char)
  | 0, _ => none
  | fuel + 1, s =>
    match s with
    | [] => none
    | c :: rest =>
      if c = '{' then parseJObjStart fuel (skipWs rest)
      else if c = '[' then parseJArrStart fuel (skipWs rest)
      else if c = '"' then parseJString fuel rest
      else if c = 't' then
        match rest with
        | 'r' :: 'u' :: 'e' :: r => some r
        | _ => none
      else if c = 'f' then
        match rest with
        | 'a' :: 'l' :: 's' :: 'e' :: r => some r
        | _ => none
      else if c = 'n' then
        match rest with
        | 'u' :: 'l' :: 'l' :: r => some r
        | _ => none
      else if c = '-' || isDig c then parseJNumber (c :: rest)
      else none

/-- After `[` (whitespace skipped): an empty array or the first element. -/
def parseJArrStart : Nat → List Char → Option (List Char)
  | 0, _ => none
  | fuel + 1, s =>
    match s with
    | ']' :: r => some r
    | _ =>
      match parseJValue fuel s with
      | none => none
      | some r => parseJArrCont fuel (skipWs r)

/-- After an array element (whitespace skipped): `]` or `,` and another. -/
def parseJArrCont : Nat → List Char → Option (List Char)
  | 0, _ => none
  | fuel + 1, s =>
    match s with
    | ']' :: r => some r
    | ',' :: r =>
      match parseJValue fuel (skipWs r) with
      | none => none
      | some r2 => parseJArrCont fuel (skipWs r2)
    | _ => none

/-- After `{` (whitespace skipped): an empty object or the first member. -/
def parseJObjStart : Nat → List Char → Option (List Char)
  | 0, _ => none
  | fuel + 1, s =>
    match s with
    | '}' :: r => some r
    | '"' :: r =>
      match parseJString fuel r with
      | none => none
      | some r2 => parseJMember fuel (skipWs r2)
    | _ => none

/-- After a member name: `:` and a value, then `}` or `,` and another. -/
def parseJMember : Nat → List Char → Option (List Char)
  | 0, _ => none
  | fuel + 1, s =>
    match s with
    | ':' :: r =>
      match parseJValue fuel (skipWs r) with
      | none => none
      | some r2 =>
        match skipWs r2 with
        | '}' :: r3 => some r3
        | ',' :: r3 =>
          match skipWs r3 with
          | '"' :: r4 =>
            match parseJString fuel r4 with
            | none => none
            | some r5 => parseJMember fuel (skipWs r5)
          | _ => none
        | _ => none
    | _ => none

/-- Body of a JSON string after the opening quote. -/
def parseJString : Nat → List Char → Option (List Char)
  | 0, _ => none
  | fuel + 1, s =>
    match s with
    | [] => none
    | '"' :: r => some r
    | '\\' :: e :: r =>
      if e = '"' || e = '\\' || e = '/' || e = 'b' || e = 'f' ||
         e = 'n' || e = 'r' || e = 't' then parseJString fuel r
      else if e = 'u' then
        match r with
        | h1 :: h2 :: h3 :: h4 :: r2 =>
          if isHex h1 && isHex h2 && isHex h3 && isHex h4 then
            parseJString fuel r2
          else none
        | _ => none
      else none
    | c :: r => if c.val < 32 then none else parseJString fuel r

end

/-- Whole-input JSON well-formedness — models `encoding/json`'s
`checkValid`, which `Unmarshal` runs over the entire payload before any
decoding is attempted, for every target type. -/
def jsonValid (s : List Char) : Bool :=
  match parseJValue (2 * s.length + 8) (skipWs s) with
  | some rest => skipWs rest = ([] : List Char)
  | none => false

/-- Type-specific part of `json.Unmarshal` for a target type `Val`: how a
syntactically well-formed document decodes into `Val`. -/
structure JSONDecoder (Val : Type) where
  decode : List Char → Except GoError Val

/-- `json.Unmarshal(data, &v)` for a target of type `Val`: the whole
payload is syntax-checked first (`checkValid`); only well-formed JSON is
handed to the type-specific decoder. -/
def jsonUnmarshal (d : JSONDecoder Val) (data : List Char) : Except GoError Val :=
  if jsonValid data then d.decode data else .error (.msg "invalid character")

/-- Go `unicode.IsSpace` restricted to Latin-1 (the characters relevant to
SSE payload bytes); used by `strings.TrimSpace`. -/
def isGoSpace (c : Char) : Bool :=
  c = ' ' || c = '\t' || c = '\n' || c = '\x0b' || c = '\x0c' || c = '\r' ||
  c = '\u0085' || c = ' '

/-- `strings.TrimSpace`. -/
def trimSpace (s : List Char) : List Char :=
  ((s.dropWhile isGoSpace).reverse.dropWhile isGoSpace).reverse

/-- `JSONParser[T].Parse`, translated from pkg/octollm
(src/unnamed/part_000): try `json.Unmarshal`; on success return the value;
on failure return the dedicated `ErrStreamDone` when the payload trims to
`[DONE]`, else the unmarshal error. -/
def jsonParserParse (d : JSONDecoder Val) (data : List Char) : Except GoError Val :=
  match jsonUnmarshal d data with
  | .ok v => .ok v
  | .error e =>
    if trimSpace data = "[DONE]".toList then .error .streamDone else .error e

/-- A non-whitespace head makes `skipWs` a no-op. -/
theorem skipWs_cons_of_not_ws {c : Char} (h : isJsonWs c = false) (r : List Char) :
    skipWs (c :: r) = c :: r := by
  simp [skipWs, h]

/-- Skipping over a Go-whitespace prefix either reduces to the suffix or
stops at a Go-space character that is not JSON whitespace. -/
theorem skipWs_goSpace_prefix :
    ∀ (ws : List Char), (∀ c ∈ ws, isGoSpace c = true) → ∀ (r : List Char),
      skipWs (ws ++ r) = skipWs r ∨
      ∃ c rest, skipWs (ws ++ r) = c :: rest ∧ isGoSpace c = true ∧ isJsonWs c = false
  | [], _, r => Or.inl rfl
  | c :: ws, h, r => by
    by_cases hc : isJsonWs c = true
    · have := skipWs_goSpace_prefix ws (fun x hx => h x (List.mem_cons_of_mem _ hx)) r
      simpa [skipWs, hc] using this
    · right
      refine ⟨c, ws ++ r, ?_, h c (List.mem_cons_self _ _), by simpa using hc⟩
      simp [skipWs, hc]

/-- No JSON value starts with `D`. -/
theorem parseJValue_D_none : ∀ (fuel : Nat) (r : List Char),
    parseJValue fuel ('D' :: r) = none
  | 0, _ => rfl
  | fuel + 1, r => rfl

/-- An array whose first element starts with `D` is malformed. -/
theorem parseJArrStart_D_none : ∀ (fuel : Nat) (r : List Char),
    parseJArrStart fuel ('D' :: r) = none
  | 0, _ => rfl
  | fuel + 1, r => by
    simp [parseJArrStart, parseJValue_D_none fuel r]

/-- A Go-space character that is not JSON whitespace starts no JSON value. -/
theorem parseJValue_goSpace_none (fuel : Nat) (c : Char) (r : List Char)
    (hg : isGoSpace c = true) (hj : isJsonWs c = false) :
    parseJValue fuel (c :: r) = none := by
  cases fuel with
  | zero => rfl
  | succ fuel =>
    have hc : c = '\x0b' ∨ c = '\x0c' ∨ c = '\u0085' ∨ c = ' ' := by
      simp only [isGoSpace, Bool.or_eq_true, decide_eq_true_eq] at hg
      simp only [isJsonWs, Bool.or_eq_false_iff, decide_eq_false_iff_not] at hj
      tauto
    rcases hc with rfl | rfl | rfl | rfl <;> rfl

/-- Dropping over a prefix on which the predicate holds everywhere. -/
theorem dropWhile_append_of_all {p : Char → Bool} :
    ∀ (ws : List Char), (∀ c ∈ ws, p c = true) → ∀ r : List Char,
      (ws ++ r).dropWhile p = r.dropWhile p
  | [], _, _ => rfl
  | c :: ws, h, r => by
    have hc := h c (List.mem_cons_self _ _)
    have ih := dropWhile_append_of_all ws (fun x hx => h x (List.mem_cons_of_mem _ hx)) r
    simp [List.dropWhile_cons, hc, ih]

/-- `strings.TrimSpace` recovers `[DONE]` from any whitespace padding. -/
theorem trimSpace_ws_done_ws (ws1 ws2 : List Char)
    (h1 : ∀ c ∈ ws1, isGoSpace c = true) (h2 : ∀ c ∈ ws2, isGoSpace c = true) :
    trimSpace (ws1 ++ "[DONE]".toList ++ ws2) = "[DONE]".toList := by
  unfold trimSpace
  rw [List.append_assoc, dropWhile_append_of_all ws1 h1]
  have hleft : ("[DONE]".toList ++ ws2).dropWhile isGoSpace = "[DONE]".toList ++ ws2 := by
    show (('[' :: "DONE]".toList) ++ ws2).dropWhile isGoSpace = _
    simp [List.dropWhile_cons, show isGoSpace '[' = false from rfl]
  rw [hleft, List.reverse_append,
    dropWhile_append_of_all ws2.reverse (fun c hc => h2 c (List.mem_reverse.mp hc))]
  have hright : ("[DONE]".toList.reverse).dropWhile isGoSpace = "[DONE]".toList.reverse := by
    decide
  rw [hright, List.reverse_reverse]

/-- `parseJValue` on an opening bracket descends into the array rule. -/
theorem parseJValue_lbracket (fuel : Nat) (r : List Char) :
    parseJValue (fuel + 1) ('[' :: r) = parseJArrStart fuel (skipWs r) := rfl

/-- A payload trimming to `[DONE]` is never well-formed JSON. -/
theorem jsonValid_ws_done_ws (ws1 ws2 : List Char)
    (h1 : ∀ c ∈ ws1, isGoSpace c = true) :
    jsonValid (ws1 ++ "[DONE]".toList ++ ws2) = false := by
  unfold jsonValid
  rw [List.append_assoc]
  obtain ⟨m, hm⟩ : ∃ m, 2 * (ws1 ++ ("[DONE]".toList ++ ws2)).length + 8 = m + 1 :=
    ⟨2 * (ws1 ++ ("[DONE]".toList ++ ws2)).length + 7, by omega⟩
  rw [hm]
  rcases skipWs_goSpace_prefix ws1 h1 ("[DONE]".toList ++ ws2) with h | ⟨c, rest, hEq, hg, hj⟩
  · rw [h]
    have hski : skipWs ("[DONE]".toList ++ ws2) = '[' :: ("DONE]".toList ++ ws2) := by
      show skipWs ('[' :: ("DONE]".toList ++ ws2)) = _
      exact skipWs_cons_of_not_ws (by decide) _
    rw [hski, parseJValue_lbracket]
    have hskD : skipWs ("DONE]".toList ++ ws2) = 'D' :: ("ONE]".toList ++ ws2) := by
      show skipWs ('D' :: ("ONE]".toList ++ ws2)) = _
      exact skipWs_cons_of_not_ws (by decide) _
    rw [hskD, parseJArrStart_D_none]
  · rw [hEq, parseJValue_goSpace_none (m + 1) c rest hg hj]

/-- C7: a stream chunk whose data is `[DONE]`, possibly surrounded by
whitespace, is recognised by `JSONParser.Parse` as the dedicated
stream-done error and never parses successfully — for every target
decoder, because `json.Unmarshal` syntax-checks the whole payload first
and `[DONE]` is not well-formed JSON for any target type. -/
theorem C7_stream_done_marker (Val : Type) (d : JSONDecoder Val) (ws1 ws2 : List Char)
    (h1 : ∀ c ∈ ws1, isGoSpace c = true) (h2 : ∀ c ∈ ws2, isGoSpace c = true) :
    jsonParserParse d (ws1 ++ "[DONE]".toList ++ ws2) = .error .streamDone := by
  have hvalid := jsonValid_ws_done_ws ws1 ws2 h1
  have htrim := trimSpace_ws_done_ws ws1 ws2 h1 h2
  simp only [jsonParserParse, jsonUnmarshal]
  rw [hvalid]
  simp
  simpa using htrim

/-- Witness for C7: a concrete decoder and the payload `" [DONE]"`. -/
theorem C7_stream_done_marker_witness :
    jsonParserParse ⟨fun _ => .ok (0 : Nat)⟩ ([' '] ++ "[DONE]".toList ++ []) =
      .error .streamDone :=
  C7_stream_done_marker Nat ⟨fun _ => .ok 0⟩ [' '] [] (by decide) (by decide)

/-! ### HTTP client stage: SSE line scanner -/

/-- Accumulated state of the SSE scanner goroutine: the current event's
data buffer and metadata map (as an association list). -/
structure SSEState where
  bodyBuffer : List Char
  meta : List (String × String)
deriving DecidableEq

/-- Overwrite-or-insert into the metadata map. -/
def setMeta (m : List (String × String)) (k v : String) : List (String × String) :=
  match m with
  | [] => [(k, v)]
  | (k', v') :: rest => if k' = k then (k, v) :: rest else (k', v') :: setMeta rest k v

/-- Result of scanning one SSE line: a blank line dispatches the buffered
event and resets the state; any other line updates the state. -/
inductive SSELineResult where
  | dispatch (body : List Char) (meta : List (String × String)) (st : SSEState)
  | cont (st : SSEState)
deriving DecidableEq

/-- One iteration of the SSE scanner loop in `HTTPEndpoint.Process`
(src/unnamed/part_002), translated from the source: blank line dispatches;
a leading colon is a comment; otherwise the first colon splits key and
value (`colonIdx = -1` leaves the whole line as both key and value); the
`data` key appends the value from its first non-space byte onward (nothing
when there is none); `event`/`id` store the value with left spaces
trimmed; other keys are ignored. -/
def processSSELine (line : List Char) (st : SSEState) : SSELineResult :=
  if line = [] then .dispatch st.bodyBuffer st.meta ⟨[], []⟩
  else
    let colonIdx? := line.findIdx? (· = ':')
    if colonIdx? = some 0 then .cont st
    else
      let key := match colonIdx? with
        | none => line
        | some i => line.take i
      let value := match colonIdx? with
        | none => line
        | some i => line.drop (i + 1)
      if key = "data".toList then
        match value.findIdx? (fun b => b ≠ ' ') with
        | none => .cont st
        | some start => .cont { st with bodyBuffer := st.bodyBuffer ++ value.drop start }
      else if key = "event".toList then
        .cont { st with meta := setMeta st.meta "event" (String.mk (value.dropWhile (· = ' '))) }
      else if key = "id".toList then
        .cont { st with meta := setMeta st.meta "id" (String.mk (value.dropWhile (· = ' '))) }
      else .cont st

/-- Modelled from the spec: `data`: append the value (with exactly one
leading space stripped) to the event's data buffer. -/
def specDataAppend (buf value : List Char) : List Char :=
  buf ++ (match value with
          | ' ' :: rest => rest
          | v => v)

/-- C5: refuted as stated.  On the line `data:  hi` (two leading spaces in
the value) the scanner appends `hi` — it strips every leading space — while
the claim (and the WHATWG event-stream rule the code cites) appends ` hi`,
stripping exactly one.  An all-space value likewise appends nothing rather
than the space remainder. -/
theorem C5_data_line_strips_all_spaces :
    processSSELine "data:  hi".toList ⟨[], []⟩ = .cont ⟨"hi".toList, []⟩ ∧
    specDataAppend [] "  hi".toList = " hi".toList ∧
    processSSELine "data:   ".toList ⟨[], []⟩ = .cont ⟨[], []⟩ ∧
    specDataAppend [] "   ".toList = "  ".toList := by
  refine ⟨by decide, by decide, by decide, by decide⟩

/-! ### Composer: `getEngine` access control -/

/-- Model descriptor: only the `access` field matters to access control. -/
structure ModelCfg where
  access : String

/-- Per-org user configuration: which models have an explicit entry. -/
structure UserOrgCfg where
  models : String → Bool

/-- The configuration file as visible to `getEngine`. -/
structure ComposerConf where
  models : String → Option ModelCfg
  users : String → Option UserOrgCfg

/-- `hasOrgModelConf` as computed by `RuleComposerFileBased.getEngine`
(pkg/composer/config_file.go): requires a non-empty org, a user entry for
the org, and an explicit model entry under it. -/
def hasOrgModelConf (conf : ComposerConf) (org model : String) : Bool :=
  if org = "" then false
  else match conf.users org with
    | none => false
    | some oc => oc.models model

/-- Outcome of `getEngine` up to the end of access control: a cache hit,
a handler error `{status, message}`, or proceeding to build the engine
(whose later failures are unrelated to access). -/
inductive GetEngineResult where
  | cached
  | failure (status : Nat) (message : String)
  | build
deriving DecidableEq

/-- `RuleComposerFileBased.getEngine`, translated from the source up to
the access-control switch: cache lookup, model lookup (404), then
`internal` rejecting an empty org and `private` rejecting orgs without an
explicit (org, model) entry, both with HTTP 401. -/
def getEngineCheck (cache : String → String → Bool) (conf : ComposerConf)
    (org model : String) : GetEngineResult :=
  if cache org model then .cached
  else match conf.models model with
    | none => .failure 404 "Model Not Found"
    | some m =>
      if m.access = "internal" then
        if org = "" then .failure 401 "Unauthorized" else .build
      else if m.access = "private" then
        if hasOrgModelConf conf org model then .build
        else .failure 401 "Unauthorized"
      else .build

/-- C8: for every (org, model) lookup that is not already cached (a cache
entry exists only after a past lookup passed these checks) and whose model
exists: an `internal` model with empty org fails with handler status 401;
a `private` model without an (org, model) user entry fails with 401; a
`public` model passes access control and proceeds to engine building. -/
theorem C8_access_control (cache : String → String → Bool) (conf : ComposerConf)
    (org model : String) (m : ModelCfg)
    (hmiss : cache org model = false) (hm : conf.models model = some m) :
    (m.access = "internal" → org = "" →
      getEngineCheck cache conf org model = .failure 401 "Unauthorized") ∧
    (m.access = "private" → hasOrgModelConf conf org model = false →
      getEngineCheck cache conf org model = .failure 401 "Unauthorized") ∧
    (m.access = "public" → getEngineCheck cache conf org model = .build) := by
  refine ⟨fun ha ho => ?_, fun ha hno => ?_, fun ha => ?_⟩ <;>
    simp [getEngineCheck, hmiss, hm, ha] <;> simp_all

/-- Witness for C8 at a concrete configuration: an internal model looked
up with an empty org is rejected with 401. -/
theorem C8_access_control_witness :
    getEngineCheck (fun _ _ => false)
      ⟨fun _ => some ⟨"internal"⟩, fun _ => none⟩ "" "m" = .failure 401 "Unauthorized" :=
  (C8_access_control (fun _ _ => false) ⟨fun _ => some ⟨"internal"⟩, fun _ => none⟩
    "" "m" ⟨"internal"⟩ rfl rfl).1 rfl rfl

/-! ### Moderator stage: stream goroutine -/

/-- One upstream chunk as seen by the moderator goroutine: an opaque
payload (the chunk passed through) together with the result of
`ExtractTextFromBody` on its body. -/
structure ModChunk (α : Type) where
  payload : α
  extracted : Except String (List Char)

/-- Outcome of the moderator's stream goroutine: `closed` — the upstream
ended and the output channel was closed with no failure pending (buffered
tail chunks dropped); `replacedEnd` — a failure broke the loop and the
handler emitted the optional replacement built from `chunkBuffer[0]`;
`panicked` — the handler evaluated `chunkBuffer[0]` on an empty buffer,
an index-out-of-range runtime panic.  Each carries the chunks forwarded
before that point. -/
inductive ModOutcome (α : Type) where
  | closed (emitted : List α)
  | replacedEnd (emitted : List α) (rep : Option α)
  | panicked (emitted : List α)
deriving DecidableEq

/-- Keep the last `n` runes (`textBuffer = textBuffer[len-max:]`). -/
def lastRunes (n : Nat) (l : List Char) : List Char :=
  if n < l.length then l.drop (l.length - n) else l

/-- The moderator stream goroutine of `TextModeratorEngine.Process`
(pkg/engines/moderator/moderator.go), translated from the source as a
function of the incoming chunk list.  `allow` models
`ModeratorService.Allow` on the sliding text buffer, `rep` models
`GetReplacementBody` on the first buffered chunk, `every` is the effective
`moderateEvery`.  Context cancellation is not taken (the uncancelled path
is modelled). -/
def modRun (allow : List Char → Bool) (maxLen : Nat) (rep : α → Option α)
    (every : Nat) (tb : List Char) (cb : List (ModChunk α)) (cnt : Nat) :
    List (ModChunk α) → ModOutcome α
  | [] => .closed []
  | c :: rest =>
    match c.extracted with
    | .error _ =>
      match cb with
      | [] => .panicked []
      | c0 :: _ => .replacedEnd [] (rep c0.payload)
    | .ok text =>
      let tb' := lastRunes maxLen (tb ++ text)
      let cb' := cb ++ [c]
      if every ≤ cnt + 1 then
        if allow tb' then
          match modRun allow maxLen rep every tb' [] 0 rest with
          | .closed es => .closed (cb'.map (·.payload) ++ es)
          | .replacedEnd es r => .replacedEnd (cb'.map (·.payload) ++ es) r
          | .panicked es => .panicked (cb'.map (·.payload) ++ es)
        else
          match cb' with
          | [] => .panicked []
          | c0 :: _ => .replacedEnd [] (rep c0.payload)
      else modRun allow maxLen rep every tb' cb' (cnt + 1) rest

/-- `moderateEvery` with the `<= 0` default of 10 applied. -/
def effEvery (cfg : Int) : Nat := if cfg ≤ 0 then 10 else cfg.toNat

/-- The goroutine from its initial state. -/
def moderateStream (allow : List Char → Bool) (maxLen : Nat) (rep : α → Option α)
    (cfgEvery : Int) (chunks : List (ModChunk α)) : ModOutcome α :=
  modRun allow maxLen rep (effEvery cfgEvery) [] [] 0 chunks

/-- C10: refuted — the access is out of bounds.  When the very first
chunk's text extraction fails, the loop breaks before anything was
buffered, and the failure handler evaluates `chunkBuffer[0]` on an empty
buffer: an index-out-of-range panic. -/
theorem C10_first_chunk_extract_error_panics :
    moderateStream (fun _ => true) 100 (fun p : Nat => some p) 10
      [⟨7, .error "parse body error"⟩] = .panicked [] := rfl

/-- The effective `moderateEvery` is always positive. -/
theorem effEvery_pos (cfg : Int) : 0 < effEvery cfg := by
  unfold effEvery
  split <;> omega

/-- Unfolding `modRun` on the empty stream. -/
theorem modRun_nil (allow : List Char → Bool) (maxLen : Nat) (rep : α → Option α)
    (every : Nat) (tb : List Char) (cb : List (ModChunk α)) (cnt : Nat) :
    modRun allow maxLen rep every tb cb cnt [] = .closed [] := rfl

/-- Unfolding `modRun` on one incoming chunk. -/
theorem modRun_cons (allow : List Char → Bool) (maxLen : Nat) (rep : α → Option α)
    (every : Nat) (tb : List Char) (cb : List (ModChunk α)) (cnt : Nat)
    (c : ModChunk α) (rest : List (ModChunk α)) :
    modRun allow maxLen rep every tb cb cnt (c :: rest) =
      match c.extracted with
      | .error _ =>
        match cb with
        | [] => .panicked []
        | c0 :: _ => .replacedEnd [] (rep c0.payload)
      | .ok text =>
        let tb' := lastRunes maxLen (tb ++ text)
        let cb' := cb ++ [c]
        if every ≤ cnt + 1 then
          if allow tb' then
            match modRun allow maxLen rep every tb' [] 0 rest with
            | .closed es => .closed (cb'.map (·.payload) ++ es)
            | .replacedEnd es r => .replacedEnd (cb'.map (·.payload) ++ es) r
            | .panicked es => .panicked (cb'.map (·.payload) ++ es)
          else
            match cb' with
            | [] => .panicked []
            | c0 :: _ => .replacedEnd [] (rep c0.payload)
        else modRun allow maxLen rep every tb' cb' (cnt + 1) rest := rfl

/-- Flush behaviour of the moderator goroutine when every extraction
succeeds and every moderation check passes: from a state whose chunk
buffer holds `cnt` chunks, the chunks forwarded are exactly the complete
`every`-sized windows of buffered-plus-incoming chunks, and the stream
closes normally. -/
theorem modRun_all_pass (allow : List Char → Bool) (maxLen : Nat)
    (rep : α → Option α) (every : Nat) (hallow : ∀ s, allow s = true) :
    ∀ (chunks : List (ModChunk α)) (tb : List Char) (cb : List (ModChunk α)) (cnt : Nat),
      (∀ c ∈ chunks, ∃ t, c.extracted = .ok t) →
      cnt = cb.length → cnt + 1 ≤ every →
      modRun allow maxLen rep every tb cb cnt chunks =
        .closed (((cb ++ chunks).take (every * ((cnt + chunks.length) / every))).map (·.payload)) := by
  intro chunks
  induction chunks with
  | nil =>
    intro tb cb cnt _ hcnt hlt
    have h0 : cnt / every = 0 := Nat.div_eq_of_lt (by omega)
    rw [modRun_nil]
    simp [h0]
  | cons c rest ih =>
    intro tb cb cnt hex hcnt hlt
    obtain ⟨t, ht⟩ := hex c (List.mem_cons_self _ _)
    have hexr : ∀ x ∈ rest, ∃ u, x.extracted = .ok u :=
      fun x hx => hex x (List.mem_cons_of_mem _ hx)
    rw [modRun_cons, ht]
    dsimp only
    by_cases hfl : every ≤ cnt + 1
    · have hIH := ih (lastRunes maxLen (tb ++ t)) [] 0 hexr rfl (by omega)
      rw [if_pos hfl, hallow _, if_pos rfl, hIH]
      dsimp only
      have hlen : (cb ++ [c]).length = every := by
        simp only [List.length_append, List.length_cons, List.length_nil]
        omega
      simp only [List.nil_append, Nat.zero_add, List.length_cons]
      rw [show cnt + (rest.length + 1) = rest.length + every from by omega,
        Nat.add_div_right _ (by omega : 0 < every),
        show every * (rest.length / every + 1) = every + every * (rest.length / every) from by
          ring,
        show cb ++ c :: rest = (cb ++ [c]) ++ rest from by simp,
        List.take_add, List.take_left' hlen, List.drop_left' hlen, List.map_append]
      simp [List.map_append]
    · have hIH := ih (lastRunes maxLen (tb ++ t)) (cb ++ [c]) (cnt + 1) hexr
        (by simp [hcnt]) (by omega)
      rw [if_neg hfl, hIH]
      simp only [List.length_cons]
      rw [show cb ++ [c] ++ rest = cb ++ c :: rest from by simp,
        show cnt + 1 + rest.length = cnt + (rest.length + 1) from by omega]

/-- C9: in the moderator's streaming path with all extractions succeeding
and every moderation check passing, the forwarded chunks are exactly the
first `every * (n / every)` ones: chunks are forwarded only in complete
windows right after a passing check, and a tail of fewer than
`moderateStreamEvery` chunks buffered when the upstream ends normally is
never forwarded. -/
theorem C9_tail_chunks_never_forwarded (α : Type) (allow : List Char → Bool)
    (maxLen : Nat) (rep : α → Option α) (cfgEvery : Int)
    (chunks : List (ModChunk α))
    (hex : ∀ c ∈ chunks, ∃ t, c.extracted = .ok t)
    (hallow : ∀ s, allow s = true) :
    moderateStream allow maxLen rep cfgEvery chunks =
      .closed ((chunks.take (effEvery cfgEvery * (chunks.length / effEvery cfgEvery))).map (·.payload)) := by
  have he := effEvery_pos cfgEvery
  have := modRun_all_pass allow maxLen rep (effEvery cfgEvery) hallow chunks [] [] 0
    hex rfl (by omega)
  simpa [moderateStream] using this

/-- Witness for C9: five all-clean chunks with `moderateStreamEvery = 3`
forward exactly the first three; the two tail chunks are dropped. -/
theorem C9_tail_chunks_never_forwarded_witness :
    moderateStream (fun _ => true) 100 (fun p : Nat => some p) 3
      [⟨1, .ok ['a']⟩, ⟨2, .ok ['b']⟩, ⟨3, .ok ['c']⟩, ⟨4, .ok ['d']⟩, ⟨5, .ok ['e']⟩] =
      .closed [1, 2, 3] := by
  have := C9_tail_chunks_never_forwarded Nat (fun _ => true) 100 (fun p => some p) 3
    [⟨1, .ok ['a']⟩, ⟨2, .ok ['b']⟩, ⟨3, .ok ['c']⟩, ⟨4, .ok ['d']⟩, ⟨5, .ok ['e']⟩]
    (by intro c hc
        simp only [List.mem_cons, List.not_mem_nil, or_false] at hc
        rcases hc with rfl | rfl | rfl | rfl | rfl <;> exact ⟨_, rfl⟩)
    (fun _ => rfl)
  simpa using this

/-! ### Load-balancer stage: retry loop of `WeightedRoundRobin.Process` -/

/-- What one `Process` call returns, plus the attempt and time accounting
used to state the retry bounds. -/
structure LBResult where
  attempts : Nat
  elapsed : Int
  success : Bool
deriving DecidableEq

/-- The retry loop of `WeightedRoundRobin.Process`
(pkg/engines/load-balancer/round_robin.go), translated from the source.
`outcome n` tells whether the engine attempt number `n+1` succeeds
(`err == nil`); `dur n` is its duration, so `time.Since(start)` after it
is the accumulated `elapsed`.  A success returns immediately; a failure
increments the retry counter, then returns when `elapsed ≥ retryTimeout`,
then when `retryCount ≥ retryMaxCount`, else retries. -/
def lbRun (outcome : Nat → Bool) (dur : Nat → Int) (timeout maxCount : Int)
    (n : Nat) (elapsed : Int) : LBResult :=
  let el := elapsed + dur n
  if outcome n then ⟨n + 1, el, true⟩
  else if timeout ≤ el then ⟨n + 1, el, false⟩
  else if h : maxCount ≤ (n + 1 : Int) then ⟨n + 1, el, false⟩
  else lbRun outcome dur timeout maxCount (n + 1) el
termination_by (maxCount - n).toNat
decreasing_by
  simp only [not_le] at h
  omega

/-- `WeightedRoundRobin.Process` retry accounting from the start of a
request. -/
def lbProcess (outcome : Nat → Bool) (dur : Nat → Int) (timeout maxCount : Int) :
    LBResult :=
  lbRun outcome dur timeout maxCount 0 0

/-- Bounds of the retry loop from an arbitrary iteration: at least one
attempt is always made; the final attempt count stays below
`max (n+1) maxCount`; elapsed time is at most `timeout` plus one
attempt's duration; all attempts before the final one failed; and the
result reflects the final attempt's outcome. -/
theorem lbRun_spec (outcome : Nat → Bool) (dur : Nat → Int) (timeout maxCount : Int)
    (D : Int) (hd : ∀ m, 0 ≤ dur m ∧ dur m ≤ D) :
    ∀ (k n : Nat) (elapsed : Int), (maxCount - n).toNat ≤ k → elapsed ≤ timeout →
      n < (lbRun outcome dur timeout maxCount n elapsed).attempts ∧
      ((lbRun outcome dur timeout maxCount n elapsed).attempts : Int) ≤
        max (n + 1 : Int) maxCount ∧
      (lbRun outcome dur timeout maxCount n elapsed).elapsed ≤ timeout + D ∧
      (∀ m, n ≤ m → m + 1 < (lbRun outcome dur timeout maxCount n elapsed).attempts →
        outcome m = false) ∧
      (lbRun outcome dur timeout maxCount n elapsed).success =
        outcome ((lbRun outcome dur timeout maxCount n elapsed).attempts - 1) := by
  intro k
  induction k with
  | zero =>
    intro n elapsed hk he
    unfold lbRun
    by_cases ho : outcome n = true
    · simp only [ho, if_true]
      refine ⟨by omega, ?_, ?_, ?_, by simp [ho]⟩
      · exact le_max_of_le_left (by push_cast; omega)
      · have := hd n
        omega
      · intro m hm hm2
        simp at hm2
        omega
    · simp only [ho, if_false, Bool.false_eq_true]
      by_cases htm : timeout ≤ elapsed + dur n
      · simp only [if_pos htm]
        refine ⟨by omega, ?_, ?_, ?_, by simpa using (Bool.not_eq_true _).mp ho⟩
        · exact le_max_of_le_left (by push_cast; omega)
        · have := hd n
          omega
        · intro m hm hm2
          simp at hm2
          omega
      · simp only [if_neg htm]
        have hcnt : maxCount ≤ (n + 1 : Int) := by omega
        simp only [dif_pos hcnt]
        refine ⟨by omega, ?_, ?_, ?_, by simpa using (Bool.not_eq_true _).mp ho⟩
        · exact le_max_of_le_left (by push_cast; omega)
        · have := hd n
          omega
        · intro m hm hm2
          simp at hm2
          omega
  | succ k ih =>
    intro n elapsed hk he
    unfold lbRun
    by_cases ho : outcome n = true
    · simp only [ho, if_true]
      refine ⟨by omega, ?_, ?_, ?_, by simp [ho]⟩
      · exact le_max_of_le_left (by push_cast; omega)
      · have := hd n
        omega
      · intro m hm hm2
        simp at hm2
        omega
    · simp only [ho, if_false, Bool.false_eq_true]
      by_cases htm : timeout ≤ elapsed + dur n
      · simp only [if_pos htm]
        refine ⟨by omega, ?_, ?_, ?_, by simpa using (Bool.not_eq_true _).mp ho⟩
        · exact le_max_of_le_left (by push_cast; omega)
        · have := hd n
          omega
        · intro m hm hm2
          simp at hm2
          omega
      · simp only [if_neg htm]
        by_cases hcnt : maxCount ≤ (n + 1 : Int)
        · simp only [dif_pos hcnt]
          refine ⟨by omega, ?_, ?_, ?_, by simpa using (Bool.not_eq_true _).mp ho⟩
          · exact le_max_of_le_left (by push_cast; omega)
          · have := hd n
            omega
          · intro m hm hm2
            simp at hm2
            omega
        · simp only [dif_neg hcnt]
          have hdn := hd n
          have hrec := ih (n + 1) (elapsed + dur n) (by omega) (by omega)
          obtain ⟨h1, h2, h3, h4, h5⟩ := hrec
          refine ⟨by omega, ?_, h3, ?_, h5⟩
          · have h2' := h2
            push_cast at h2'
            rw [max_eq_right (by omega : (n : Int) + 1 + 1 ≤ maxCount)] at h2'
            exact le_trans h2' (le_max_right _ _)
          · intro m hm hm2
            rcases Nat.eq_or_lt_of_le hm with rfl | hlt
            · exact (Bool.not_eq_true _).mp ho
            · exact h4 m hlt hm2

/-- C4 counterexample: with `retryMaxCount = 0` (and a timeout that is
not yet reached) a request still makes one upstream attempt, so the
attempt count exceeds `retryMaxCount`. -/
theorem C4_zero_maxcount_counterexample :
    (lbProcess (fun _ => false) (fun _ => 0) 1000 0).attempts = 1 ∧
    ¬ ((lbProcess (fun _ => false) (fun _ => 0) 1000 0).attempts ≤ 0) := by
  have h : lbProcess (fun _ => false) (fun _ => 0) 1000 0 = ⟨1, 0, false⟩ := by
    unfold lbProcess lbRun
    norm_num
  rw [h]
  exact ⟨rfl, by decide⟩

/-- C4 amended: per request the load balancer makes at least one and at
most `max 1 retryMaxCount` upstream attempts; with a non-negative
`retryTimeout` and attempt durations bounded by `D`, total elapsed time
is at most `retryTimeout + D` (one upstream roundtrip); every attempt
before the final one failed (a retry happens only after a failure); and
the call returns with the final attempt's outcome, so a success is
returned immediately. -/
theorem C4_retry_bounds (outcome : Nat → Bool) (dur : Nat → Int)
    (timeout maxCount D : Int)
    (hd : ∀ m, 0 ≤ dur m ∧ dur m ≤ D) (ht : 0 ≤ timeout) :
    1 ≤ (lbProcess outcome dur timeout maxCount).attempts ∧
    ((lbProcess outcome dur timeout maxCount).attempts : Int) ≤ max 1 maxCount ∧
    (lbProcess outcome dur timeout maxCount).elapsed ≤ timeout + D ∧
    (∀ m, m + 1 < (lbProcess outcome dur timeout maxCount).attempts →
      outcome m = false) ∧
    (lbProcess outcome dur timeout maxCount).success =
      outcome ((lbProcess outcome dur timeout maxCount).attempts - 1) := by
  unfold lbProcess
  have := lbRun_spec outcome dur timeout maxCount D hd (maxCount.toNat) 0 0
    (by norm_num) ht
  obtain ⟨h1, h2, h3, h4, h5⟩ := this
  exact ⟨by omega, by simpa using h2, h3, fun m hm => h4 m (Nat.zero_le m) hm, h5⟩

/-- Witness for C4 at a concrete failing-then-succeeding engine. -/
theorem C4_retry_bounds_witness :
    1 ≤ (lbProcess (fun n => n == 1) (fun _ => 1) 10 5).attempts ∧
    ((lbProcess (fun n => n == 1) (fun _ => 1) 10 5).attempts : Int) ≤ max 1 5 ∧
    (lbProcess (fun n => n == 1) (fun _ => 1) 10 5).elapsed ≤ 10 + 1 ∧
    (∀ m, m + 1 < (lbProcess (fun n => n == 1) (fun _ => 1) 10 5).attempts →
      (fun n => n == 1) m = false) ∧
    (lbProcess (fun n => n == 1) (fun _ => 1) 10 5).success =
      (fun n => n == 1) ((lbProcess (fun n => n == 1) (fun _ => 1) 10 5).attempts - 1) :=
  C4_retry_bounds (fun n => n == 1) (fun _ => 1) 10 5 1
    (fun _ => ⟨by norm_num, by norm_num⟩) (by norm_num)

/-! ### Format converter: `convertStreamResponse` stream state machine -/

/-- `mapFinishReason`. -/
def mapFinishReason (fr : String) : String :=
  if fr = "stop" then "end_turn"
  else if fr = "length" then "max_tokens"
  else if fr = "tool_calls" then "tool_use"
  else fr

/-- One entry of `choice.Delta.ToolCalls`: OpenAI tool-call index, id,
function name and partial arguments. -/
structure ToolCallDelta where
  index : Int
  id : String
  name : String
  args : String
deriving DecidableEq

/-- `choices[0]` of a chat chunk as the converter reads it. -/
structure ChunkChoice where
  content : String
  toolCalls : List ToolCallDelta
  finishReason : String
deriving DecidableEq

/-- A parsed `ChatCompletionChunk`: `usage` is present when the chunk's
JSON carries a usage object with `prompt_tokens`
(`(promptTokens, completionTokens)`). -/
structure OpenAIChunk where
  id : String
  model : String
  choices : List ChunkChoice
  usage : Option (Nat × Nat)
deriving DecidableEq

/-- One frame arriving on the converter's input stream: a chunk whose
parse succeeded, the `[DONE]` marker (parse yields `ErrStreamDone`), or a
frame skipped with a logged error (other parse failure / wrong type). -/
inductive ChatFrame where
  | done
  | bad
  | chunk (c : OpenAIChunk)
deriving DecidableEq

/-- `currentBlockType`. -/
inductive BlockType where
  | bnone
  | btext
  | btool
deriving DecidableEq

/-- The converter goroutine's state variables. -/
structure ConvState where
  started : Bool
  msgID : String
  model : String
  blockIndex : Int
  blockType : BlockType
  toolIndex : Int
  pendingFR : Option String
  pendingUsage : Option (Nat × Nat)
deriving DecidableEq

/-- Initial state (`currentBlockIndex = -1`, `currentToolCallIndex = -1`). -/
def initConvState : ConvState := ⟨false, "", "", -1, .bnone, -1, none, none⟩

/-- Messages-format stream events as emitted by the converter (the `type`
field names the constructor; each event's `event` metadata is set to the
same string by `sendEvent`). -/
inductive MsgEvent where
  | messageStart (id model : String)
  | contentBlockStartText (index : Int)
  | contentBlockStartTool (index : Int) (id name : String)
  | textDelta (index : Int) (text : String)
  | inputJsonDelta (index : Int) (partialJson : String)
  | contentBlockStop (index : Int)
  | messageDelta (stopReason : String) (usage : Option (Nat × Nat))
  | messageStop
deriving DecidableEq

/-- Handling of one `toolCalls` entry, translated from the tool-call loop
of `convertStreamResponse` (src/unnamed/part_006): a new `tool_use` block
opens unless the current block is the tool block of this OpenAI index;
non-empty arguments emit an `input_json_delta`. -/
def stepToolCall (s : ConvState) (tc : ToolCallDelta) : ConvState × List MsgEvent :=
  let needNew : Bool :=
    match s.blockType with
    | .bnone => true
    | .btext => true
    | .btool => s.toolIndex != tc.index
  if needNew then
    let closeE : List MsgEvent :=
      if s.blockType ≠ BlockType.bnone then [.contentBlockStop s.blockIndex] else []
    let idx := s.blockIndex + 1
    let deltaE : List MsgEvent :=
      if tc.args ≠ "" then [.inputJsonDelta idx tc.args] else []
    ({ s with blockIndex := idx, blockType := .btool, toolIndex := tc.index },
     closeE ++ [.contentBlockStartTool idx tc.id tc.name] ++ deltaE)
  else
    (s, if tc.args ≠ "" then [.inputJsonDelta s.blockIndex tc.args] else [])

/-- Fold of `stepToolCall` over the chunk's tool-call entries. -/
def stepToolCalls (s : ConvState) : List ToolCallDelta → ConvState × List MsgEvent
  | [] => (s, [])
  | tc :: rest =>
    let p1 := stepToolCall s tc
    let p2 := stepToolCalls p1.1 rest
    (p2.1, p1.2 ++ p2.2)

/-- Handling of a non-empty `deltaContent`, translated from the text
branch: a new text block opens unless the current block is text. -/
def stepText (s : ConvState) (deltaContent : String) : ConvState × List MsgEvent :=
  if deltaContent ≠ "" then
    if s.blockType ≠ BlockType.btext then
      let closeE : List MsgEvent :=
        if s.blockType ≠ BlockType.bnone then [.contentBlockStop s.blockIndex] else []
      let idx := s.blockIndex + 1
      ({ s with blockIndex := idx, blockType := .btext },
       closeE ++ [.contentBlockStartText idx, .textDelta idx deltaContent])
    else (s, [.textDelta s.blockIndex deltaContent])
  else (s, [])

/-- Handling of one parse-ok chunk, translated from the loop body of
`convertStreamResponse`: emit `message_start` on the first chunk; record a
non-empty finish reason and any valid usage; then the text branch and the
tool-call loop. -/
def stepChunk (s : ConvState) (c : OpenAIChunk) : ConvState × List MsgEvent :=
  let startPair : ConvState × List MsgEvent :=
    if s.started then (s, [])
    else ({ s with started := true, msgID := c.id, model := c.model },
          [.messageStart c.id c.model])
  let deltaContent := match c.choices with | [] => "" | ch :: _ => ch.content
  let toolCalls := match c.choices with | [] => ([] : List ToolCallDelta) | ch :: _ => ch.toolCalls
  let fr := match c.choices with | [] => "" | ch :: _ => ch.finishReason
  let s1 := if fr ≠ "" then { startPair.1 with pendingFR := some fr } else startPair.1
  let s2 := match c.usage with
    | some u => { s1 with pendingUsage := some u }
    | none => s1
  let tp := stepText s2 deltaContent
  let lp := stepToolCalls tp.1 toolCalls
  (lp.1, startPair.2 ++ tp.2 ++ lp.2)

/-- Events emitted on the `[DONE]` marker: close any open block, emit
`message_delta` with the mapped pending stop reason and pending usage if
a finish reason is pending, then `message_stop`; the goroutine breaks. -/
def doneEvents (s : ConvState) : List MsgEvent :=
  (if s.blockType ≠ BlockType.bnone then [MsgEvent.contentBlockStop s.blockIndex] else []) ++
  (match s.pendingFR with
   | some fr => [MsgEvent.messageDelta (mapFinishReason fr) s.pendingUsage]
   | none => []) ++
  [MsgEvent.messageStop]

/-- The converter goroutine over the incoming frame list: `bad` frames
are skipped, `done` emits the closing events and breaks, chunks run
`stepChunk`.  A stream that ends without `[DONE]` emits no closing
events. -/
def convGo (s : ConvState) : List ChatFrame → List MsgEvent
  | [] => []
  | .done :: _ => doneEvents s
  | .bad :: rest => convGo s rest
  | .chunk c :: rest =>
    let p := stepChunk s c
    p.2 ++ convGo p.1 rest

/-- `convertStreamResponse` from its initial state. -/
def convertStream (frames : List ChatFrame) : List MsgEvent :=
  convGo initConvState frames

/-- Frame builders for the streamed-tool-call scenario. -/
def roleFrame (id model : String) : ChatFrame := .chunk ⟨id, model, [⟨"", [], ""⟩], none⟩

/-- A chunk carrying one text delta. -/
def textFrame (id model t : String) : ChatFrame := .chunk ⟨id, model, [⟨t, [], ""⟩], none⟩

/-- The chunk opening tool call 0 with id, name and a first fragment. -/
def toolOpenFrame (id model tid tname a0 : String) : ChatFrame :=
  .chunk ⟨id, model, [⟨"", [⟨0, tid, tname, a0⟩], ""⟩], none⟩

/-- A continuation chunk for tool call 0 carrying one fragment. -/
def toolArgFrame (id model a : String) : ChatFrame :=
  .chunk ⟨id, model, [⟨"", [⟨0, "", "", a⟩], ""⟩], none⟩

/-- The chunk carrying the finish reason. -/
def finishFrame (id model fr : String) : ChatFrame :=
  .chunk ⟨id, model, [⟨"", [], fr⟩], none⟩

/-- The trailing usage chunk (empty `choices`). -/
def usageFrame (id model : String) (u : Nat × Nat) : ChatFrame :=
  .chunk ⟨id, model, [], some u⟩

/-- A text frame in text-block state emits one `text_delta` and leaves
the state unchanged. -/
theorem stepChunk_textFrame (s : ConvState) (id model t : String)
    (hst : s.started = true) (hbt : s.blockType = BlockType.btext) (ht : t ≠ "") :
    stepChunk s ⟨id, model, [⟨t, [], ""⟩], none⟩ = (s, [.textDelta s.blockIndex t]) := by
  simp [stepChunk, stepText, stepToolCalls, hst, hbt, ht]

/-- Text frames pass through `convGo` as `text_delta` events. -/
theorem convGo_textFrames (id model : String) (s : ConvState)
    (hst : s.started = true) (hbt : s.blockType = BlockType.btext) :
    ∀ (ts : List String), (∀ t ∈ ts, t ≠ "") → ∀ (rest : List ChatFrame),
      convGo s (ts.map (textFrame id model) ++ rest) =
        ts.map (fun t => MsgEvent.textDelta s.blockIndex t) ++ convGo s rest
  | [], _, rest => rfl
  | t :: ts, hts, rest => by
    have ht := hts t (List.mem_cons_self _ _)
    have ih := convGo_textFrames id model s hst hbt ts
      (fun x hx => hts x (List.mem_cons_of_mem _ hx)) rest
    simp only [List.map_cons, List.cons_append, convGo, textFrame,
      stepChunk_textFrame s id model t hst hbt ht, List.append_eq, List.nil_append]
    rw [ih]

/-- A continuation tool-arg frame in the matching tool-block state emits
an `input_json_delta` for a non-empty fragment and leaves the state
unchanged. -/
theorem stepChunk_toolArgFrame (s : ConvState) (id model a : String)
    (hst : s.started = true) (hbt : s.blockType = BlockType.btool)
    (hidx : s.toolIndex = 0) :
    stepChunk s ⟨id, model, [⟨"", [⟨0, "", "", a⟩], ""⟩], none⟩ =
      (s, if a ≠ "" then [.inputJsonDelta s.blockIndex a] else []) := by
  simp [stepChunk, stepText, stepToolCalls, stepToolCall, hst, hbt, hidx]

/-- Tool-arg frames pass through `convGo` as one `input_json_delta` per
non-empty fragment. -/
theorem convGo_toolArgFrames (id model : String) (s : ConvState)
    (hst : s.started = true) (hbt : s.blockType = BlockType.btool)
    (hidx : s.toolIndex = 0) :
    ∀ (as : List String) (rest : List ChatFrame),
      convGo s (as.map (toolArgFrame id model) ++ rest) =
        (as.filter (fun a => a ≠ "")).map (fun a => MsgEvent.inputJsonDelta s.blockIndex a) ++
          convGo s rest
  | [], rest => rfl
  | a :: as, rest => by
    have hstep := stepChunk_toolArgFrame s id model a hst hbt hidx
    have ih := convGo_toolArgFrames id model s hst hbt hidx as rest
    simp only [List.map_cons, List.cons_append, convGo, toolArgFrame, hstep,
      List.append_eq, List.nil_append]
    rw [ih]
    by_cases ha : a = ""
    · simp [ha, List.filter_cons]
    · simp [ha, List.filter_cons]

/-- Unfolding `convGo` on a parse-ok chunk. -/
theorem convGo_chunk (s : ConvState) (c : OpenAIChunk) (rest : List ChatFrame) :
    convGo s (.chunk c :: rest) = (stepChunk s c).2 ++ convGo (stepChunk s c).1 rest := rfl

/-- Unfolding `convGo` on the `[DONE]` marker: closing events, then break. -/
theorem convGo_done (s : ConvState) (rest : List ChatFrame) :
    convGo s (.done :: rest) = doneEvents s := rfl

/-- C1: for every chat stream delivering a text prefix, then tool-call
chunks for a single tool-call index with arguments split across frames,
then a finish reason (with trailing usage and `[DONE]`), the conversion
emits exactly: `message_start`, `content_block_start` (text), one
`text_delta` per text delta, `content_block_stop`, `content_block_start`
(tool_use with the call's id, name, empty input), one `input_json_delta`
per non-empty arguments fragment, `content_block_stop`, `message_delta`
with mapped stop reason `tool_use` and the pending usage, and finally
`message_stop`; and on the first chat chunk alone only `message_start`
(an empty assistant message) is emitted. -/
theorem C1_stream_tool_call_trace
    (id model tid tname : String) (t0 : String) (trest : List String)
    (a0 : String) (args : List String) (u : Nat × Nat)
    (ht0 : t0 ≠ "") (htr : ∀ t ∈ trest, t ≠ "") :
    convertStream ([roleFrame id model] ++ (t0 :: trest).map (textFrame id model) ++
        [toolOpenFrame id model tid tname a0] ++ args.map (toolArgFrame id model) ++
        [finishFrame id model "tool_calls", usageFrame id model u, ChatFrame.done]) =
      [.messageStart id model, .contentBlockStartText 0] ++
        (t0 :: trest).map (fun t => MsgEvent.textDelta 0 t) ++
        [.contentBlockStop 0, .contentBlockStartTool 1 tid tname] ++
        ((a0 :: args).filter (fun a => a ≠ "")).map
          (fun a => MsgEvent.inputJsonDelta 1 a) ++
        [.contentBlockStop 1, .messageDelta "tool_use" (some u), .messageStop] ∧
    convertStream [roleFrame id model] = [.messageStart id model] := by
  have h0 : stepChunk initConvState ⟨id, model, [⟨"", [], ""⟩], none⟩ =
      (⟨true, id, model, -1, .bnone, -1, none, none⟩, [.messageStart id model]) := by
    simp [stepChunk, stepText, stepToolCalls, initConvState]
  constructor
  · have h1 : stepChunk ⟨true, id, model, -1, .bnone, -1, none, none⟩
        ⟨id, model, [⟨t0, [], ""⟩], none⟩ =
        (⟨true, id, model, 0, .btext, -1, none, none⟩,
         [.contentBlockStartText 0, .textDelta 0 t0]) := by
      simp [stepChunk, stepText, stepToolCalls, ht0]
    have h2 : stepChunk ⟨true, id, model, 0, .btext, -1, none, none⟩
        ⟨id, model, [⟨"", [⟨0, tid, tname, a0⟩], ""⟩], none⟩ =
        (⟨true, id, model, 1, .btool, 0, none, none⟩,
         [.contentBlockStop 0, .contentBlockStartTool 1 tid tname] ++
           (if a0 ≠ "" then [.inputJsonDelta 1 a0] else [])) := by
      by_cases ha0 : a0 = "" <;>
        simp [stepChunk, stepText, stepToolCalls, stepToolCall, ha0]
    have h3 : stepChunk ⟨true, id, model, 1, .btool, 0, none, none⟩
        ⟨id, model, [⟨"", [], "tool_calls"⟩], none⟩ =
        (⟨true, id, model, 1, .btool, 0, some "tool_calls", none⟩, []) := by
      simp [stepChunk, stepText, stepToolCalls]
    have h4 : stepChunk ⟨true, id, model, 1, .btool, 0, some "tool_calls", none⟩
        ⟨id, model, [], some u⟩ =
        (⟨true, id, model, 1, .btool, 0, some "tool_calls", some u⟩, []) := by
      simp [stepChunk, stepText, stepToolCalls]
    have h5 : doneEvents ⟨true, id, model, 1, .btool, 0, some "tool_calls", some u⟩ =
        [.contentBlockStop 1, .messageDelta "tool_use" (some u), .messageStop] := by
      simp [doneEvents, mapFinishReason]
    have htext := convGo_textFrames id model
      ⟨true, id, model, 0, .btext, -1, none, none⟩ rfl rfl trest htr
    have hargs := convGo_toolArgFrames id model
      ⟨true, id, model, 1, .btool, 0, none, none⟩ rfl rfl rfl args
    simp only [convertStream, List.cons_append, List.singleton_append, List.map_cons,
      List.nil_append, List.append_assoc]
    simp only [roleFrame, textFrame, toolOpenFrame, finishFrame, usageFrame]
    rw [convGo_chunk, h0]
    dsimp only
    rw [convGo_chunk, h1]
    dsimp only
    rw [htext]
    dsimp only
    rw [convGo_chunk, h2]
    dsimp only
    rw [hargs]
    dsimp only
    rw [convGo_chunk, h3]
    dsimp only
    rw [convGo_chunk, h4]
    dsimp only
    rw [convGo_done, h5]
    by_cases ha0 : a0 = "" <;> simp [ha0, List.filter_cons, List.append_assoc]
  · simp only [convertStream, roleFrame, convGo_chunk, h0]
    rfl

/-- Witness for C1: the S4 scenario — text prefix `I'll check.`, a
`get_weather` call at index 0 with arguments split over two frames, the
`tool_calls` finish reason, trailing usage, `[DONE]`. -/
theorem C1_stream_tool_call_trace_witness :
    convertStream ([roleFrame "c91" "Kimi"] ++
        (["I'll check."] : List String).map (textFrame "c91" "Kimi") ++
        [toolOpenFrame "c91" "Kimi" "functions.get_weather:0" "get_weather" ""] ++
        (["\x7b\"city\":", "\"SF\"\x7d"] : List String).map (toolArgFrame "c91" "Kimi") ++
        [finishFrame "c91" "Kimi" "tool_calls", usageFrame "c91" "Kimi" (177, 69),
         ChatFrame.done]) =
      [.messageStart "c91" "Kimi", .contentBlockStartText 0] ++
        (["I'll check."] : List String).map (fun t => MsgEvent.textDelta 0 t) ++
        [.contentBlockStop 0, .contentBlockStartTool 1 "functions.get_weather:0" "get_weather"] ++
        ((("" : String) :: ["\x7b\"city\":", "\"SF\"\x7d"]).filter (fun a => a ≠ "")).map
          (fun a => MsgEvent.inputJsonDelta 1 a) ++
        [.contentBlockStop 1, .messageDelta "tool_use" (some (177, 69)), .messageStop] ∧
    convertStream [roleFrame "c91" "Kimi"] = [.messageStart "c91" "Kimi"] := by
  have := C1_stream_tool_call_trace "c91" "Kimi" "functions.get_weather:0" "get_weather"
    "I'll check." [] "" ["\x7b\"city\":", "\"SF\"\x7d"] (177, 69) (by decide) (by decide)
  simpa using this

/-! ### Load balancer: smooth weighted round robin (`GetNextEngine`) -/

/-- `wrrBackend`: weight and accumulator, as Go ints. -/
structure WrrBackend where
  weight : Int
  currentWeight : Int
deriving DecidableEq

/-- The per-selection increment `backend.currentWeight += backend.weight`
applied to every backend during the scan. -/
def wrrAdd (bs : List WrrBackend) : List WrrBackend :=
  bs.map fun b => { b with currentWeight := b.currentWeight + b.weight }

/-- `totalWeight` as summed during the scan. -/
def wrrTotal (bs : List WrrBackend) : Int := (bs.map (·.weight)).sum

/-- One iteration of the scan in `GetNextEngine`: accumulator is
`(maxWeight, maxWeightBackend index, position)`; a strictly larger value
takes over. -/
def scanStep (acc : Int × Option Nat × Nat) (v : Int) : Int × Option Nat × Nat :=
  if acc.1 < v then (v, some acc.2.2, acc.2.2 + 1) else (acc.1, acc.2.1, acc.2.2 + 1)

/-- The scan of `GetNextEngine` over the incremented `currentWeight`s:
`maxWeight` starts at 0 and `maxWeightBackend` at nil, so the winner is
the first index attaining the positive maximum, or none. -/
def findWinner (vs : List Int) : Option Nat := (vs.foldl scanStep (0, none, 0)).2.1

/-- Backend at an index (default only ever used out of range). -/
def bGet (bs : List WrrBackend) (i : Nat) : WrrBackend := (bs.get? i).getD ⟨0, 0⟩

/-- `currentWeight` at an index. -/
def creditAt (bs : List WrrBackend) (i : Nat) : Int := (bGet bs i).currentWeight

/-- `weight` at an index. -/
def weightAt (bs : List WrrBackend) (i : Nat) : Int := (bGet bs i).weight

/-- `GetNextEngine`, translated from the source: increment every
accumulator, scan for the first strictly-positive maximum, subtract the
total weight from the winner.  Mutations to `currentWeight` persist even
when no winner exists. -/
def wrrSelect (bs : List WrrBackend) : Option Nat × List WrrBackend :=
  match findWinner ((wrrAdd bs).map (·.currentWeight)) with
  | none => (none, wrrAdd bs)
  | some j =>
    (some j,
     (wrrAdd bs).set j
       { bGet (wrrAdd bs) j with
         currentWeight := (bGet (wrrAdd bs) j).currentWeight - wrrTotal bs })

/-- The balancer state after `t` selections. -/
def wrrIter (bs : List WrrBackend) : Nat → List WrrBackend
  | 0 => bs
  | t + 1 => (wrrSelect (wrrIter bs t)).2

/-- The index selected at step `t` (0-based). -/
def wrrSelAt (bs : List WrrBackend) (t : Nat) : Option Nat := (wrrSelect (wrrIter bs t)).1

/-- How many of the first `t` selections pick backend `i`. -/
def selCount (bs : List WrrBackend) (i t : Nat) : Nat :=
  (List.range t).countP (fun s => decide (wrrSelAt bs s = some i))

/-- `NewWeightedRoundRobin`, translated from the source: an empty backend
list and negative weights are construction errors; all-zero weights are
replaced by 100; each backend starts with `currentWeight = rand.Intn(w+1)`
(a bounded random value in `[0, w]`, modelled as `rnd i % (w+1)`). -/
def NewWeightedRoundRobin (items : List Int) (rnd : Nat → Nat) :
    Except GoError (List WrrBackend) :=
  if items.length = 0 then .error (.msg "backends must have at least one item")
  else if items.any (fun w => w < 0) then .error (.msg "weight must be >= 0")
  else
    let allZero := items.all (fun w => w = 0)
    .ok ((List.range items.length).map (fun i =>
      let w := if allZero then 100 else items.getD i 0
      ⟨w, ((rnd i % (w.toNat + 1) : Nat) : Int)⟩))

/-- Invariant of the `GetNextEngine` scan: the running maximum only
grows, dominates every scanned value, and the recorded winner either is
the inherited one (with the maximum unchanged) or points into the scanned
list at a value equal to the new, strictly larger maximum. -/
theorem scanFold_spec : ∀ (vs : List Int) (m : Int) (b : Option Nat) (i : Nat),
    m ≤ (vs.foldl scanStep (m, b, i)).1 ∧
    (∀ v ∈ vs, v ≤ (vs.foldl scanStep (m, b, i)).1) ∧
    (((vs.foldl scanStep (m, b, i)).2.1 = b ∧ (vs.foldl scanStep (m, b, i)).1 = m) ∨
      ∃ j, (vs.foldl scanStep (m, b, i)).2.1 = some j ∧ i ≤ j ∧ j - i < vs.length ∧
        vs.getD (j - i) 0 = (vs.foldl scanStep (m, b, i)).1 ∧
        m < (vs.foldl scanStep (m, b, i)).1)
  | [], m, b, i => by
    refine ⟨le_refl _, by simp, Or.inl ⟨rfl, rfl⟩⟩
  | v :: vs, m, b, i => by
    rw [List.foldl_cons]
    by_cases hv : m < v
    · have ih := scanFold_spec vs v (some i) (i + 1)
      rw [show scanStep (m, b, i) v = (v, some i, i + 1) from by simp [scanStep, hv]]
      obtain ⟨ih1, ih2, ih3⟩ := ih
      refine ⟨by omega, ?_, ?_⟩
      · intro x hx
        rcases List.mem_cons.mp hx with rfl | hx
        · exact ih1
        · exact ih2 x hx
      · rcases ih3 with ⟨hb, hm⟩ | ⟨j, hb, hij, hlen, hval, hlt⟩
        · refine Or.inr ⟨i, hb, le_refl i, by simp, ?_, by omega⟩
          simp [hm]
        · refine Or.inr ⟨j, hb, by omega, by simp; omega, ?_, by omega⟩
          have : j - i = (j - (i + 1)) + 1 := by omega
          rw [this, List.getD_cons_succ, hval]
    · have ih := scanFold_spec vs m b (i + 1)
      rw [show scanStep (m, b, i) v = (m, b, i + 1) from by simp [scanStep, hv]]
      obtain ⟨ih1, ih2, ih3⟩ := ih
      refine ⟨ih1, ?_, ?_⟩
      · intro x hx
        rcases List.mem_cons.mp hx with rfl | hx
        · omega
        · exact ih2 x hx
      · rcases ih3 with ⟨hb, hm⟩ | ⟨j, hb, hij, hlen, hval, hlt⟩
        · exact Or.inl ⟨hb, hm⟩
        · refine Or.inr ⟨j, hb, by omega, by simp; omega, ?_, hlt⟩
          have : j - i = (j - (i + 1)) + 1 := by omega
          rw [this, List.getD_cons_succ, hval]

/-- A recorded winner is the first index of the maximum: it points into
the list, its value is positive and dominates every entry. -/
theorem findWinner_spec (vs : List Int) (j : Nat) (h : findWinner vs = some j) :
    j < vs.length ∧ 1 ≤ vs.getD j 0 ∧ ∀ l, l < vs.length → vs.getD l 0 ≤ vs.getD j 0 := by
  obtain ⟨h1, h2, h3⟩ := scanFold_spec vs 0 none 0
  unfold findWinner at h
  rcases h3 with ⟨hb, _⟩ | ⟨j', hb, _, hlen, hval, hlt⟩
  · rw [h] at hb
    exact absurd hb (by simp)
  · rw [h] at hb
    obtain rfl : j' = j := by simpa using hb.symm
    simp only [Nat.sub_zero] at hlen hval
    refine ⟨hlen, by omega, ?_⟩
    intro l hl
    have := h2 (vs.getD l 0) (by rw [List.getD_eq_getElem vs 0 hl]; exact List.getElem_mem _)
    omega

/-- Any positive entry forces the scan to record a winner. -/
theorem findWinner_isSome (vs : List Int) (l : Nat) (hl : l < vs.length)
    (hv : 1 ≤ vs.getD l 0) : ∃ j, findWinner vs = some j := by
  obtain ⟨h1, h2, h3⟩ := scanFold_spec vs 0 none 0
  rcases h3 with ⟨hb, hm⟩ | ⟨j, hb, _, _, _, _⟩
  · exfalso
    have := h2 (vs.getD l 0) (by rw [List.getD_eq_getElem vs 0 hl]; exact List.getElem_mem _)
    omega
  · exact ⟨j, hb⟩

/-- Sum of all accumulators. -/
def sumCredits (bs : List WrrBackend) : Int := (bs.map (·.currentWeight)).sum

/-- The increment pass preserves length. -/
theorem length_wrrAdd (bs : List WrrBackend) : (wrrAdd bs).length = bs.length := by
  simp [wrrAdd]

/-- Accumulator after the increment pass. -/
theorem creditAt_wrrAdd (bs : List WrrBackend) (i : Nat) (h : i < bs.length) :
    creditAt (wrrAdd bs) i = creditAt bs i + weightAt bs i := by
  unfold creditAt weightAt bGet wrrAdd
  rw [List.get?_map]
  cases hg : bs.get? i with
  | none => exact absurd (List.get?_eq_none.mp hg) (by omega)
  | some b => simp

/-- Weights are untouched by the increment pass. -/
theorem weightAt_wrrAdd (bs : List WrrBackend) (i : Nat) :
    weightAt (wrrAdd bs) i = weightAt bs i := by
  unfold weightAt bGet wrrAdd
  rw [List.get?_map]
  cases bs.get? i <;> simp

/-- The total weight is untouched by the increment pass. -/
theorem wrrTotal_wrrAdd (bs : List WrrBackend) : wrrTotal (wrrAdd bs) = wrrTotal bs := by
  simp only [wrrTotal, wrrAdd, List.map_map]
  rfl

/-- The increment pass adds the total weight to the accumulator sum. -/
theorem sumCredits_wrrAdd (bs : List WrrBackend) :
    sumCredits (wrrAdd bs) = sumCredits bs + wrrTotal bs := by
  induction bs with
  | nil => rfl
  | cons b bs ih =>
    simp only [sumCredits, wrrAdd, wrrTotal, List.map_cons, List.sum_cons] at ih ⊢
    rw [ih]
    ring

/-- `set` at an index with the same weight keeps the total weight. -/
theorem wrrTotal_set (bs : List WrrBackend) (j : Nat) (b' : WrrBackend)
    (hw : b'.weight = weightAt bs j) : wrrTotal (bs.set j b') = wrrTotal bs := by
  induction bs generalizing j with
  | nil => simp
  | cons b bs ih =>
    cases j with
    | zero =>
      simp only [List.set_cons_zero, wrrTotal, List.map_cons, List.sum_cons]
      rw [hw]
      rfl
    | succ j =>
      simp only [List.set_cons_succ, wrrTotal, List.map_cons, List.sum_cons]
      have := ih j (by simpa [weightAt, bGet] using hw)
      simp only [wrrTotal] at this
      rw [this]

/-- `set` at an in-range index shifts the accumulator sum by the
difference. -/
theorem sumCredits_set (bs : List WrrBackend) (j : Nat) (b' : WrrBackend)
    (h : j < bs.length) :
    sumCredits (bs.set j b') = sumCredits bs - creditAt bs j + b'.currentWeight := by
  induction bs generalizing j with
  | nil => simp at h
  | cons b bs ih =>
    cases j with
    | zero =>
      simp only [List.set_cons_zero, sumCredits, List.map_cons, List.sum_cons,
        creditAt, bGet, List.get?]
      simp
      ring
    | succ j =>
      simp only [List.set_cons_succ, sumCredits, List.map_cons, List.sum_cons]
      have := ih j (by simpa using h)
      simp only [sumCredits] at this
      rw [this]
      simp only [creditAt, bGet, List.get?]
      ring

/-- `getD` of the mapped accumulator list. -/
theorem mapCW_getD (bs : List WrrBackend) (l : Nat) (h : l < bs.length) :
    (bs.map (·.currentWeight)).getD l 0 = creditAt bs l := by
  rw [List.getD_eq_getElem _ 0 (by simpa using h)]
  simp [creditAt, bGet, List.get?_eq_getElem?, List.getElem?_eq_getElem h]

/-- The selected index, as the scan's result. -/
theorem wrrSelect_fst (bs : List WrrBackend) :
    (wrrSelect bs).1 = findWinner ((wrrAdd bs).map (·.currentWeight)) := by
  unfold wrrSelect
  cases findWinner ((wrrAdd bs).map (·.currentWeight)) <;> rfl

/-- Selection preserves the number of backends. -/
theorem length_wrrSelect (bs : List WrrBackend) : (wrrSelect bs).2.length = bs.length := by
  unfold wrrSelect
  cases findWinner ((wrrAdd bs).map (·.currentWeight)) <;>
    simp [length_wrrAdd]

/-- Selection preserves every weight. -/
theorem weightAt_wrrSelect (bs : List WrrBackend) (i : Nat) :
    weightAt (wrrSelect bs).2 i = weightAt bs i := by
  unfold wrrSelect
  cases hw : findWinner ((wrrAdd bs).map (·.currentWeight)) with
  | none => simp [weightAt_wrrAdd]
  | some j =>
    simp only
    by_cases hij : j = i
    · subst hij
      by_cases h : j < (wrrAdd bs).length
      · unfold weightAt bGet
        rw [List.get?_set_eq_of_lt _ h]
        simp only [Option.getD_some]
        exact weightAt_wrrAdd bs j
      · rw [List.set_eq_of_length_le (by omega)]
        exact weightAt_wrrAdd bs j
    · unfold weightAt bGet
      rw [List.get?_set_ne _ _ hij]
      exact weightAt_wrrAdd bs i

/-- Selection preserves the total weight. -/
theorem wrrTotal_wrrSelect (bs : List WrrBackend) :
    wrrTotal (wrrSelect bs).2 = wrrTotal bs := by
  unfold wrrSelect
  cases hw : findWinner ((wrrAdd bs).map (·.currentWeight)) with
  | none => simp [wrrTotal_wrrAdd]
  | some j =>
    simp only
    rw [show wrrTotal ((wrrAdd bs).set j
        { bGet (wrrAdd bs) j with
          currentWeight := (bGet (wrrAdd bs) j).currentWeight - wrrTotal bs }) =
        wrrTotal (wrrAdd bs) from wrrTotal_set _ _ _ rfl]
    exact wrrTotal_wrrAdd bs

/-- Accumulator evolution over one selection: every backend gains its
weight; the winner additionally loses the total weight. -/
theorem creditAt_wrrSelect (bs : List WrrBackend) (i : Nat) (h : i < bs.length) :
    creditAt (wrrSelect bs).2 i =
      creditAt bs i + weightAt bs i -
        (if (wrrSelect bs).1 = some i then wrrTotal bs else 0) := by
  have hfst := wrrSelect_fst bs
  unfold wrrSelect
  cases hw : findWinner ((wrrAdd bs).map (·.currentWeight)) with
  | none =>
    rw [hw] at hfst
    simp only
    rw [creditAt_wrrAdd bs i h]
    simp [hfst]
  | some j =>
    rw [hw] at hfst
    have hj : j < bs.length := by
      have := (findWinner_spec _ _ hw).1
      simpa [length_wrrAdd] using this
    simp only
    by_cases hij : j = i
    · subst hij
      unfold creditAt bGet
      rw [List.get?_set_eq_of_lt _ (by simpa [length_wrrAdd] using hj)]
      simp only [Option.getD_some]
      have hstep := creditAt_wrrAdd bs j h
      unfold creditAt bGet at hstep
      rw [hstep]
      simp
    · unfold creditAt bGet
      rw [List.get?_set_ne _ _ hij]
      have hstep := creditAt_wrrAdd bs i h
      unfold creditAt bGet at hstep
      rw [hstep]
      have hne : ¬ ((some j : Option Nat) = some i) := by simpa using hij
      simp [hne]

/-- With a winner, one selection preserves the accumulator sum. -/
theorem sumCredits_wrrSelect (bs : List WrrBackend) (j : Nat)
    (h : (wrrSelect bs).1 = some j) :
    sumCredits (wrrSelect bs).2 = sumCredits bs := by
  have hfst := wrrSelect_fst bs
  rw [h] at hfst
  have hj : j < (wrrAdd bs).length := by
    have := (findWinner_spec _ _ hfst.symm).1
    simpa using this
  unfold wrrSelect
  rw [← hfst]
  simp only
  rw [sumCredits_set _ _ _ hj, sumCredits_wrrAdd]
  simp only [creditAt]
  ring

/-- A list of integers with positive sum has an entry `≥ 1`. -/
theorem exists_one_le_of_one_le_sum : ∀ (l : List Int), 1 ≤ l.sum → ∃ x ∈ l, 1 ≤ x
  | [], h => by simp at h
  | x :: l, h => by
    by_cases hx : 1 ≤ x
    · exact ⟨x, List.mem_cons_self _ _, hx⟩
    · have h1 : 1 ≤ l.sum := by
        simp only [List.sum_cons] at h
        omega
      obtain ⟨y, hy, hy1⟩ := exists_one_le_of_one_le_sum l h1
      exact ⟨y, List.mem_cons_of_mem _ hy, hy1⟩

/-- Nonnegative accumulators and a positive total force a winner. -/
theorem wrrSelect_isSome (bs : List WrrBackend) (hS : 0 ≤ sumCredits bs)
    (hW : 1 ≤ wrrTotal bs) : ∃ j, (wrrSelect bs).1 = some j := by
  have hsum : 1 ≤ ((wrrAdd bs).map (·.currentWeight)).sum := by
    have h2 := sumCredits_wrrAdd bs
    simp only [sumCredits] at h2 hS
    omega
  obtain ⟨x, hx, hx1⟩ := exists_one_le_of_one_le_sum _ hsum
  obtain ⟨l, hl, rfl⟩ := List.mem_iff_getElem.mp hx
  have hgd : 1 ≤ ((wrrAdd bs).map (·.currentWeight)).getD l 0 := by
    rw [List.getD_eq_getElem _ 0 hl]
    exact hx1
  obtain ⟨j, hj⟩ := findWinner_isSome _ l hl hgd
  exact ⟨j, by rw [wrrSelect_fst]; exact hj⟩

/-- The winner of a selection: in range, with positive incremented value
dominating every backend's incremented value. -/
theorem wrrSelect_winner_spec (bs : List WrrBackend) (j : Nat)
    (h : (wrrSelect bs).1 = some j) :
    j < bs.length ∧ 1 ≤ creditAt bs j + weightAt bs j ∧
      ∀ l, l < bs.length → creditAt bs l + weightAt bs l ≤ creditAt bs j + weightAt bs j := by
  rw [wrrSelect_fst] at h
  obtain ⟨h1, h2, h3⟩ := findWinner_spec _ _ h
  have hlen : ((wrrAdd bs).map (·.currentWeight)).length = bs.length := by
    simp [length_wrrAdd]
  have hj : j < bs.length := by omega
  have hconv : ∀ l, l < bs.length →
      ((wrrAdd bs).map (·.currentWeight)).getD l 0 = creditAt bs l + weightAt bs l := by
    intro l hl
    rw [mapCW_getD _ l (by simpa [length_wrrAdd] using hl), creditAt_wrrAdd bs l hl]
  refine ⟨hj, ?_, ?_⟩
  · rw [hconv j hj] at h2
    exact h2
  · intro l hl
    have := h3 l (by omega)
    rw [hconv j hj, hconv l hl] at this
    exact this

/-- Iteration preserves the number of backends. -/
theorem length_wrrIter (bs : List WrrBackend) : ∀ t, (wrrIter bs t).length = bs.length
  | 0 => rfl
  | t + 1 => by rw [wrrIter, length_wrrSelect, length_wrrIter bs t]

/-- Iteration preserves every weight. -/
theorem weightAt_wrrIter (bs : List WrrBackend) (i : Nat) :
    ∀ t, weightAt (wrrIter bs t) i = weightAt bs i
  | 0 => rfl
  | t + 1 => by rw [wrrIter, weightAt_wrrSelect, weightAt_wrrIter bs i t]

/-- Iteration preserves the total weight. -/
theorem wrrTotal_wrrIter (bs : List WrrBackend) :
    ∀ t, wrrTotal (wrrIter bs t) = wrrTotal bs
  | 0 => rfl
  | t + 1 => by rw [wrrIter, wrrTotal_wrrSelect, wrrTotal_wrrIter bs t]

/-- Under a nonnegative accumulator sum and positive total, the
accumulator sum is invariant along the run. -/
theorem sumCredits_wrrIter (bs : List WrrBackend) (hS : 0 ≤ sumCredits bs)
    (hW : 1 ≤ wrrTotal bs) : ∀ t, sumCredits (wrrIter bs t) = sumCredits bs
  | 0 => rfl
  | t + 1 => by
    have ih := sumCredits_wrrIter bs hS hW t
    obtain ⟨j, hj⟩ := wrrSelect_isSome (wrrIter bs t) (by omega)
      (by rw [wrrTotal_wrrIter]; exact hW)
    rw [wrrIter, sumCredits_wrrSelect _ j hj, ih]

/-- Every step of the run has a winner. -/
theorem wrrSelAt_isSome (bs : List WrrBackend) (hS : 0 ≤ sumCredits bs)
    (hW : 1 ≤ wrrTotal bs) (t : Nat) : ∃ j, wrrSelAt bs t = some j := by
  have := sumCredits_wrrIter bs hS hW t
  exact wrrSelect_isSome (wrrIter bs t) (by omega) (by rw [wrrTotal_wrrIter]; exact hW)

/-- One more step adds one selection of the winner. -/
theorem selCount_succ (bs : List WrrBackend) (i t : Nat) :
    selCount bs i (t + 1) =
      selCount bs i t + (if wrrSelAt bs t = some i then 1 else 0) := by
  unfold selCount
  rw [List.range_succ, List.countP_append]
  simp [List.countP_cons]

/-- The credit formula: after `t` steps each accumulator equals its
start plus `t` times its weight minus the selections times the total. -/
theorem creditAt_wrrIter (bs : List WrrBackend) (i : Nat) (h : i < bs.length) :
    ∀ t, creditAt (wrrIter bs t) i =
      creditAt bs i + t * weightAt bs i - (selCount bs i t : Int) * wrrTotal bs
  | 0 => by
    simp [selCount, wrrIter]
  | t + 1 => by
    have ih := creditAt_wrrIter bs i h t
    have hstep := creditAt_wrrSelect (wrrIter bs t) i (by rw [length_wrrIter]; exact h)
    rw [wrrIter, hstep, ih, weightAt_wrrIter, wrrTotal_wrrIter, selCount_succ]
    by_cases hwin : wrrSelAt bs t = some i
    · rw [if_pos (show (wrrSelect (wrrIter bs t)).1 = some i from hwin), if_pos hwin]
      push_cast
      ring
    · rw [if_neg (show ¬ (wrrSelect (wrrIter bs t)).1 = some i from hwin), if_neg hwin]
      push_cast
      ring

/-- List sums over backends as index sums. -/
theorem map_sum_eq_range_sum (f : WrrBackend → Int) : ∀ (bs : List WrrBackend),
    (bs.map f).sum = ∑ i in Finset.range bs.length, f (bGet bs i)
  | [] => by simp
  | b :: bs => by
    rw [List.map_cons, List.sum_cons, map_sum_eq_range_sum f bs, List.length_cons,
      Finset.sum_range_succ']
    have hs : ∀ i, bGet (b :: bs) (i + 1) = bGet bs i := fun i => rfl
    have h0 : bGet (b :: bs) 0 = b := rfl
    simp only [hs, h0]
    ring

/-- The total weight as an index sum. -/
theorem wrrTotal_eq_sum (bs : List WrrBackend) :
    wrrTotal bs = ∑ i in Finset.range bs.length, weightAt bs i :=
  map_sum_eq_range_sum (·.weight) bs

/-- Indexed form of the weight hypothesis. -/
theorem weightAt_nonneg (bs : List WrrBackend) (hw : ∀ b ∈ bs, 0 ≤ b.weight)
    (i : Nat) : 0 ≤ weightAt bs i := by
  unfold weightAt bGet
  cases hg : bs.get? i with
  | none => simp
  | some b => simpa using hw b (List.get?_mem hg)

/-- Indexed form of the box hypothesis. -/
theorem creditAt_box (bs : List WrrBackend)
    (hbox : ∀ b ∈ bs, 0 ≤ b.currentWeight ∧ b.currentWeight ≤ b.weight) (i : Nat) :
    0 ≤ creditAt bs i ∧ creditAt bs i ≤ weightAt bs i := by
  unfold creditAt weightAt bGet
  cases hg : bs.get? i with
  | none => simp
  | some b => simpa using hbox b (List.get?_mem hg)

/-- Boxed accumulators have a nonnegative sum. -/
theorem sumCredits_nonneg (bs : List WrrBackend)
    (hbox : ∀ b ∈ bs, 0 ≤ b.currentWeight ∧ b.currentWeight ≤ b.weight) :
    0 ≤ sumCredits bs := by
  apply List.sum_nonneg
  intro x hx
  obtain ⟨b, hb, rfl⟩ := List.mem_map.mp hx
  exact (hbox b hb).1

/-- Each step of the run selects exactly one backend. -/
theorem sum_selCount (bs : List WrrBackend) (hS : 0 ≤ sumCredits bs)
    (hW : 1 ≤ wrrTotal bs) :
    ∀ t, ∑ i in Finset.range bs.length, selCount bs i t = t
  | 0 => by simp [selCount]
  | t + 1 => by
    have ih := sum_selCount bs hS hW t
    obtain ⟨j, hj⟩ := wrrSelAt_isSome bs hS hW t
    have hjlen : j < bs.length := by
      have := (wrrSelect_winner_spec (wrrIter bs t) j hj).1
      rwa [length_wrrIter] at this
    simp only [selCount_succ]
    rw [Finset.sum_add_distrib, ih]
    have hcong : ∀ i ∈ Finset.range bs.length,
        (if wrrSelAt bs t = some i then 1 else 0) = (if i = j then 1 else 0) := by
      intro i _
      rw [hj]
      by_cases hij : i = j
      · simp [hij]
      · simp [hij, Ne.symm hij]
    rw [Finset.sum_congr rfl hcong, Finset.sum_ite_eq' (Finset.range bs.length) j fun _ => 1]
    simp [hjlen]

/-- No backend is selected beyond its weight within the first `W` steps:
before the last step the winner's positive incremented value would force
its initial credit above its weight; at the last step a deficit backend's
value would exceed the winner's. -/
theorem selCount_le_weight (bs : List WrrBackend)
    (hw : ∀ b ∈ bs, 0 ≤ b.weight)
    (hbox : ∀ b ∈ bs, 0 ≤ b.currentWeight ∧ b.currentWeight ≤ b.weight)
    (hW : 1 ≤ wrrTotal bs) :
    ∀ t, t ≤ (wrrTotal bs).toNat → ∀ i, i < bs.length →
      (selCount bs i t : Int) ≤ weightAt bs i
  | 0, _, i, hi => by
    simp only [selCount, List.range_zero, List.countP_nil, Nat.cast_zero]
    exact weightAt_nonneg bs hw i
  | t + 1, hT, i, hi => by
    have hS := sumCredits_nonneg bs hbox
    have ih := selCount_le_weight bs hw hbox hW t (by omega)
    have hWcast : ((wrrTotal bs).toNat : Int) = wrrTotal bs :=
      Int.toNat_of_nonneg (by omega)
    rw [selCount_succ]
    by_cases hwin : wrrSelAt bs t = some i
    swap
    · simpa [hwin] using ih i hi
    · simp only [hwin, if_pos rfl]
      have hii := ih i hi
      rcases lt_or_eq_of_le hii with hlt | heq
      · push_cast
        omega
      · exfalso
        have hspec := wrrSelect_winner_spec (wrrIter bs t) i hwin
        have hival : 1 ≤ creditAt (wrrIter bs t) i + weightAt (wrrIter bs t) i := hspec.2.1
        rw [creditAt_wrrIter bs i hi t, weightAt_wrrIter] at hival
        rw [← heq] at hival
        have hboxi := creditAt_box bs hbox i
        have hwi := weightAt_nonneg bs hw i
        by_cases hlast : t + 1 < (wrrTotal bs).toNat
        · have htW : (t : Int) + 2 ≤ wrrTotal bs := by omega
          nlinarith [mul_nonneg hwi (by omega : (0 : Int) ≤ wrrTotal bs - (t + 2))]
        · have htW : (t : Int) + 1 = wrrTotal bs := by omega
          have hsum := sum_selCount bs hS hW t
          have hsumZ : ∑ l in Finset.range bs.length, (selCount bs l t : Int) = (t : Int) := by
            rw [← Nat.cast_sum, hsum]
          have hdef : ∑ l in Finset.range bs.length,
              (weightAt bs l - (selCount bs l t : Int)) = 1 := by
            rw [Finset.sum_sub_distrib, hsumZ, ← wrrTotal_eq_sum]
            omega
          have hdpos : ∃ l ∈ Finset.range bs.length,
              (0 : Int) < weightAt bs l - (selCount bs l t : Int) := by
            by_contra hng
            push_neg at hng
            have : ∑ l in Finset.range bs.length,
                (weightAt bs l - (selCount bs l t : Int)) ≤ 0 :=
              Finset.sum_nonpos hng
            omega
          obtain ⟨jj, hjjmem, hjjpos⟩ := hdpos
          have hjjlen : jj < bs.length := Finset.mem_range.mp hjjmem
          have hjjne : jj ≠ i := by
            intro hEq
            rw [hEq, ← heq] at hjjpos
            omega
          have hdom := hspec.2.2 jj (by rwa [length_wrrIter])
          rw [creditAt_wrrIter bs i hi t, creditAt_wrrIter bs jj hjjlen t,
            weightAt_wrrIter, weightAt_wrrIter, ← heq] at hdom
          have hboxjj := creditAt_box bs hbox jj
          have hd1 : 1 ≤ weightAt bs jj - (selCount bs jj t : Int) := hjjpos
          have hnjj : (0 : Int) ≤ (selCount bs jj t : Int) := by positivity
          have hwjj1 : 1 ≤ weightAt bs jj := by omega
          have htwo : weightAt bs i + weightAt bs jj ≤ wrrTotal bs := by
            rw [wrrTotal_eq_sum]
            have herase := Finset.add_sum_erase (Finset.range bs.length)
              (fun l => weightAt bs l) (Finset.mem_range.mpr hi)
            have hjjer : jj ∈ (Finset.range bs.length).erase i :=
              Finset.mem_erase.mpr ⟨hjjne, hjjmem⟩
            have hle := Finset.single_le_sum
              (f := fun l => weightAt bs l)
              (fun l _ => weightAt_nonneg bs hw l) hjjer
            simp only [] at herase hle
            omega
          -- winner value is c_i⁰; the deficit backend's value is c_jj⁰ + W·d
          have hWd : wrrTotal bs ≤ wrrTotal bs *
              (weightAt bs jj - (selCount bs jj t : Int)) := by
            nlinarith
          nlinarith [hdom, hboxi.2, hboxjj.1]

/-- Over the first `W` selections each backend is selected exactly its
weight many times. -/
theorem selCount_at_total (bs : List WrrBackend)
    (hw : ∀ b ∈ bs, 0 ≤ b.weight)
    (hbox : ∀ b ∈ bs, 0 ≤ b.currentWeight ∧ b.currentWeight ≤ b.weight)
    (hW : 1 ≤ wrrTotal bs) :
    ∀ i, i < bs.length →
      (selCount bs i (wrrTotal bs).toNat : Int) = weightAt bs i := by
  have hS := sumCredits_nonneg bs hbox
  have hle := selCount_le_weight bs hw hbox hW (wrrTotal bs).toNat (le_refl _)
  have hsum := sum_selCount bs hS hW (wrrTotal bs).toNat
  have hWcast : ((wrrTotal bs).toNat : Int) = wrrTotal bs := Int.toNat_of_nonneg (by omega)
  have hzero : ∑ i in Finset.range bs.length,
      (weightAt bs i - (selCount bs i (wrrTotal bs).toNat : Int)) = 0 := by
    rw [Finset.sum_sub_distrib, ← wrrTotal_eq_sum, ← Nat.cast_sum, hsum]
    omega
  have hall := (Finset.sum_eq_zero_iff_of_nonneg
    (fun i hi => by
      have := hle i (Finset.mem_range.mp hi)
      omega)).mp hzero
  intro i hi
  have := hall i (Finset.mem_range.mpr hi)
  omega

/-- After `W` selections the balancer state returns to its start. -/
theorem wrrIter_cycle_once (bs : List WrrBackend)
    (hw : ∀ b ∈ bs, 0 ≤ b.weight)
    (hbox : ∀ b ∈ bs, 0 ≤ b.currentWeight ∧ b.currentWeight ≤ b.weight)
    (hW : 1 ≤ wrrTotal bs) :
    wrrIter bs (wrrTotal bs).toNat = bs := by
  apply List.ext_get?
  intro n
  by_cases hn : n < bs.length
  · have hlen : n < (wrrIter bs (wrrTotal bs).toNat).length := by
      rw [length_wrrIter]; exact hn
    have hEq : bGet (wrrIter bs (wrrTotal bs).toNat) n = bGet bs n := by
      have hwe : weightAt (wrrIter bs (wrrTotal bs).toNat) n = weightAt bs n :=
        weightAt_wrrIter bs n _
      have hce : creditAt (wrrIter bs (wrrTotal bs).toNat) n = creditAt bs n := by
        rw [creditAt_wrrIter bs n hn, selCount_at_total bs hw hbox hW n hn,
          Int.toNat_of_nonneg (show (0 : Int) ≤ wrrTotal bs by omega)]
        ring
      cases hA : bGet (wrrIter bs (wrrTotal bs).toNat) n with
      | mk w c =>
        cases hB : bGet bs n with
        | mk w' c' =>
          simp only [weightAt, creditAt] at hwe hce
          rw [hA, hB] at hwe hce
          simp only at hwe hce
          simp [hwe, hce]
    have h1 : (wrrIter bs (wrrTotal bs).toNat).get? n =
        some (bGet (wrrIter bs (wrrTotal bs).toNat) n) := by
      unfold bGet
      rw [List.get?_eq_getElem?, List.getElem?_eq_getElem hlen]
      rfl
    have h2 : bs.get? n = some (bGet bs n) := by
      unfold bGet
      rw [List.get?_eq_getElem?, List.getElem?_eq_getElem hn]
      rfl
    rw [h1, h2, hEq]
  · rw [List.get?_eq_none.mpr (by rw [length_wrrIter]; omega),
      List.get?_eq_none.mpr (by omega)]

/-- Iteration splits over sums of step counts. -/
theorem wrrIter_add (bs : List WrrBackend) (a : Nat) :
    ∀ s, wrrIter bs (a + s) = wrrIter (wrrIter bs a) s
  | 0 => rfl
  | s + 1 => by
    rw [show a + (s + 1) = (a + s) + 1 from rfl, wrrIter, wrrIter_add bs a s, wrrIter]

/-- The selection at step `a + s` is the selection of the shifted run. -/
theorem wrrSelAt_add (bs : List WrrBackend) (a s : Nat) :
    wrrSelAt bs (a + s) = wrrSelAt (wrrIter bs a) s := by
  unfold wrrSelAt
  rw [wrrIter_add]

/-- Selection counts split at any cut point. -/
theorem selCount_add (bs : List WrrBackend) (i a b : Nat) :
    selCount bs i (a + b) = selCount bs i a + selCount (wrrIter bs a) i b := by
  unfold selCount
  rw [List.range_add, List.countP_append, List.countP_map]
  congr 1
  apply List.countP_congr
  intro x _
  simp [Function.comp, wrrSelAt_add]

/-- The state returns to its start after every whole number of cycles. -/
theorem wrrIter_cycle (bs : List WrrBackend)
    (hw : ∀ b ∈ bs, 0 ≤ b.weight)
    (hbox : ∀ b ∈ bs, 0 ≤ b.currentWeight ∧ b.currentWeight ≤ b.weight)
    (hW : 1 ≤ wrrTotal bs) :
    ∀ k, wrrIter bs (k * (wrrTotal bs).toNat) = bs
  | 0 => by rw [Nat.zero_mul]; rfl
  | k + 1 => by
    rw [show (k + 1) * (wrrTotal bs).toNat =
        k * (wrrTotal bs).toNat + (wrrTotal bs).toNat from by ring,
      wrrIter_add, wrrIter_cycle bs hw hbox hW k, wrrIter_cycle_once bs hw hbox hW]

/-- Exact fairness of the smooth weighted round robin from any boxed
initial state: over `k·W` selections each backend is selected exactly
`k` times its weight. -/
theorem wrr_state_fairness (bs : List WrrBackend)
    (hw : ∀ b ∈ bs, 0 ≤ b.weight)
    (hbox : ∀ b ∈ bs, 0 ≤ b.currentWeight ∧ b.currentWeight ≤ b.weight)
    (hW : 1 ≤ wrrTotal bs) :
    ∀ k i, i < bs.length →
      selCount bs i (k * (wrrTotal bs).toNat) = k * (weightAt bs i).toNat := by
  have hone : ∀ i, i < bs.length →
      selCount bs i (wrrTotal bs).toNat = (weightAt bs i).toNat := by
    intro i hi
    have := selCount_at_total bs hw hbox hW i hi
    omega
  intro k
  induction k with
  | zero => intro i _; simp [selCount]
  | succ k ih =>
    intro i hi
    rw [show (k + 1) * (wrrTotal bs).toNat =
        k * (wrrTotal bs).toNat + (wrrTotal bs).toNat from by ring,
      selCount_add, wrrIter_cycle bs hw hbox hW k, ih i hi, hone i hi]
    ring

/-- A list's sum written as a `Finset.range` sum of `getD` values. -/
theorem list_sum_eq_range_getD : ∀ (l : List Int),
    l.sum = ∑ i in Finset.range l.length, l.getD i 0
  | [] => by simp
  | x :: l => by
    rw [List.sum_cons, list_sum_eq_range_getD l, List.length_cons, Finset.sum_range_succ']
    simp only [List.getD_cons_succ, List.getD_cons_zero]
    ring

/-- `weightAt` of a list built by mapping over `List.range`. -/
theorem weightAt_map_range (n : Nat) (f : Nat → WrrBackend) (i : Nat) (hi : i < n) :
    weightAt ((List.range n).map f) i = (f i).weight := by
  unfold weightAt bGet
  rw [List.get?_eq_getElem?, List.getElem?_map, List.getElem?_range hi]
  rfl

/-- A successful construction yields one backend per item, nonnegative
weights, initial accumulators inside `[0, weight]`, and — unless every
weight is zero — exactly the input weights and their total. -/
theorem NewWRR_spec (items : List Int) (rnd : Nat → Nat)
    (hw : ∀ w ∈ items, 0 ≤ w) (bs : List WrrBackend)
    (hok : NewWeightedRoundRobin items rnd = .ok bs) :
    bs.length = items.length ∧
    (∀ b ∈ bs, 0 ≤ b.weight) ∧
    (∀ b ∈ bs, 0 ≤ b.currentWeight ∧ b.currentWeight ≤ b.weight) ∧
    (items.all (fun w => w = 0) = false →
      (∀ i, i < items.length → weightAt bs i = items.getD i 0) ∧
      wrrTotal bs = items.sum) := by
  unfold NewWeightedRoundRobin at hok
  by_cases h0 : items.length = 0
  · rw [if_pos h0] at hok; exact absurd hok (by simp)
  rw [if_neg h0] at hok
  have hneg : ¬ (items.any (fun w => w < 0) = true) := by
    simp only [List.any_eq_true, decide_eq_true_eq]
    rintro ⟨x, hx, hlt⟩
    exact absurd (hw x hx) (by omega)
  rw [if_neg hneg] at hok
  simp only [Except.ok.injEq] at hok
  subst hok
  have hwge : ∀ i, 0 ≤ (if items.all (fun w => w = 0) then (100 : Int)
      else items.getD i 0) := by
    intro i
    by_cases hz : items.all (fun w => w = 0)
    · rw [if_pos hz]; omega
    · rw [if_neg hz]
      by_cases hi : i < items.length
      · rw [List.getD_eq_getElem _ _ hi]
        exact hw _ (List.getElem_mem hi)
      · rw [List.getD_eq_default _ _ (by omega)]
  refine ⟨by simp, ?_, ?_, ?_⟩
  · intro b hb
    obtain ⟨i, hi, rfl⟩ := List.mem_map.mp hb
    exact hwge i
  · intro b hb
    obtain ⟨i, hi, rfl⟩ := List.mem_map.mp hb
    constructor
    · exact Int.natCast_nonneg _
    · have hmod : rnd i % ((if items.all (fun w => w = 0) then (100 : Int)
          else items.getD i 0).toNat + 1) ≤ (if items.all (fun w => w = 0) then (100 : Int)
          else items.getD i 0).toNat := by
        have := Nat.mod_lt (rnd i) (show 0 < (if items.all (fun w => w = 0) then (100 : Int)
          else items.getD i 0).toNat + 1 by omega)
        omega
      calc ((rnd i % ((if items.all (fun w => w = 0) then (100 : Int)
              else items.getD i 0).toNat + 1) : Nat) : Int)
          ≤ ((if items.all (fun w => w = 0) then (100 : Int)
              else items.getD i 0).toNat : Int) := by exact_mod_cast hmod
        _ = _ := Int.toNat_of_nonneg (hwge i)
  · intro hz
    refine ⟨fun i hi => ?_, ?_⟩
    · rw [weightAt_map_range _ _ _ hi]
      simp [hz]
    · rw [wrrTotal_eq_sum, list_sum_eq_range_getD]
      simp only [List.length_map, List.length_range]
      refine Finset.sum_congr rfl (fun i hi => ?_)
      rw [weightAt_map_range _ _ _ (Finset.mem_range.mp hi)]
      simp [hz]

/-- C3: For every weighted round-robin balancer built from backends with
non-negative weights `[w1, …, wn]` of total `W` (the constructor draws each
initial `currentWeight` inside `[0, weight]`), over any run of `k·W`
consecutive selections from construction each backend `i` is selected
exactly `k·wi` times, for every integer `k ≥ 1`; and constructing a
balancer with an empty backend list fails. -/
theorem C3_wrr_fairness :
    (∀ rnd, ∃ e, NewWeightedRoundRobin [] rnd = .error e) ∧
    (∀ (items : List Int) (rnd : Nat → Nat) (bs : List WrrBackend) (k i : Nat),
      (∀ w ∈ items, 0 ≤ w) →
      NewWeightedRoundRobin items rnd = .ok bs →
      1 ≤ k → i < items.length →
      selCount bs i (k * items.sum.toNat) = k * (items.getD i 0).toNat) := by
  constructor
  · intro rnd
    exact ⟨.msg "backends must have at least one item", rfl⟩
  · intro items rnd bs k i hw hok hk hi
    obtain ⟨hlen, hw', hbox, hnz⟩ := NewWRR_spec items rnd hw bs hok
    by_cases hz : items.all (fun w => w = 0) = true
    · have hall : ∀ x ∈ items, x = 0 := by
        intro x hx
        have := List.all_eq_true.mp hz x hx
        simpa using this
      have hsum : items.sum = 0 := List.sum_eq_zero hall
      have hgd : items.getD i 0 = 0 := by
        rw [List.getD_eq_getElem _ _ hi]
        exact hall _ (List.getElem_mem hi)
      rw [hsum, hgd]
      simp [selCount]
    · have hz' : items.all (fun w => w = 0) = false := by
        cases h : items.all (fun w => w = 0) with
        | false => rfl
        | true => exact absurd h hz
      obtain ⟨hwat, htot⟩ := hnz hz'
      have hW : 1 ≤ wrrTotal bs := by
        have : ∃ x ∈ items, x ≠ 0 := by
          by_contra hcon
          push_neg at hcon
          exact hz (List.all_eq_true.mpr (fun x hx => by simpa using hcon x hx))
        obtain ⟨x, hx, hxne⟩ := this
        have hx1 : 1 ≤ x := by have := hw x hx; omega
        have hxs : x ≤ items.sum := List.single_le_sum hw x hx
        rw [htot]; omega
      have hmain := wrr_state_fairness bs hw' hbox hW k i (by omega)
      rw [show items.sum.toNat = (wrrTotal bs).toNat from by rw [htot], hmain,
        hwat i hi]

/-- Concrete instance of `C3_wrr_fairness`: weights `[1, 2]` with a zero
random source; the first backend is selected once in the first three
selections. -/
theorem C3_wrr_fairness_witness :
    selCount [⟨1, 0⟩, ⟨2, 0⟩] 0 3 = 1 := by
  have h := C3_wrr_fairness.2 [1, 2] (fun _ => 0) [⟨1, 0⟩, ⟨2, 0⟩] 1 0
    (by decide) (by rfl) (by decide) (by decide)
  simpa using h

end OctoLLM